import Mathlib

/-!
Shallow embedding of the convolution-based depth-map inpainting engine of the
view_correction repository (src/view_correction/cuda_convolution_inpainting.cu
and src/view_correction/cuda_buffer_inl.h), together with proofs about it.

Modelling conventions:
* float arithmetic is embedded into ℚ (exact rationals); the float literals of
  the source (0.073235f, 0.176765f, 1.4142135623731f) are taken as the
  corresponding decimal rationals; division is ℚ division, which is total with
  q / 0 = 0 (the division-by-zero spots of the source are tracked explicitly);
* 2-D device buffers and textures are embedded as functions ℕ → ℕ → ℚ indexed
  (row, column) = (y, x);
* machine integers are ℕ / ℤ with explicit `% 2 ^ w` where wrap-around can
  matter (uint16 block coordinates, uint32 pixel counts, and the unsigned
  wrap-around in the coordinate clamping of ConvolutionInpaintingKernel);
* the host orchestrator loop is embedded with structural fuel so that it is
  executable; sufficiency of the fuel is proved (fuel-independence), which is
  the termination statement;
* at the orchestrator level the results the device hands back to the host
  (per-tile max-change flags at a convergence check, and the effect of one
  diffusion launch on the working buffer) are abstracted as parameters; the
  kernels themselves are embedded concretely further below and the claims
  about their data behaviour are proved against those concrete embeddings.
-/

namespace ViewCorrection

/-- `constexpr int kIterationsPerKernelCall = 4;` -/
def kIterationsPerKernelCall : ℕ := 4

/-- `const int kBlockWidth = 32;` -/
def kBlockWidth : ℕ := 32

/-- `const int kBlockHeight = 32;` -/
def kBlockHeight : ℕ := 32

/-- `constexpr float kSqrt2 = 1.4142135623731f;` as an exact decimal rational. -/
def kSqrt2 : ℚ := 14142135623731 / 10000000000000

/-- `kBlockWidth - 2 * kIterationsPerKernelCall` (= 24): width of the output
sub-region of one tile (the tile minus the halo on both sides). -/
def kBlockOutputSizeX : ℕ := kBlockWidth - 2 * kIterationsPerKernelCall

/-- `kBlockHeight - 2 * kIterationsPerKernelCall` (= 24). -/
def kBlockOutputSizeY : ℕ := kBlockHeight - 2 * kIterationsPerKernelCall

/-- One diffusion-kernel launch issued by the orchestrator loop: the iteration
counter at which it was issued, the compacted tile list it was launched over
(`grid_dim_active` blocks, one per list entry), and whether this launch was a
convergence-checking launch. -/
structure LaunchRec where
  iter : ℕ
  tiles : List (ℕ × ℕ)
  check : Bool
deriving DecidableEq

/-- The `for (i = 0; i < max_num_iterations; i += kIterationsPerKernelCall)`
loop of `InpaintDepthMapWithConvolutionCUDA`, with structural fuel.
State: current iteration `i` and `last_convergence_check_iteration : ℤ`
(initialized to `-9999` by the caller).  `flags i` is the per-active-tile
max-change flag list the host downloads if a convergence check happens at
iteration `i` (the device result, abstracted as a parameter).  The loop body:
launch a kernel over all `tiles`; on a check, count the set flags; if none is
set, add one `kIterationsPerKernelCall` step and break; otherwise record the
check iteration and continue.  The active tile list is never modified by the
loop, exactly as in the source (`active_block_count` is never reassigned and
`block_coordinates_cpu` is never re-uploaded after line 406).
Returns the final iteration count and the list of launches issued. -/
def inpaintLoopAux (flags : ℕ → List Bool) (maxIter : ℕ) (tiles : List (ℕ × ℕ)) :
    ℕ → ℕ → ℤ → ℕ × List LaunchRec
  | 0, i, _ => (i, [])
  | fuel + 1, i, last =>
    if i < maxIter then
      let doCheck : Bool := decide ((i : ℤ) - last ≥ 25)
      let launch : LaunchRec := ⟨i, tiles, doCheck⟩
      if doCheck then
        if (flags i).count true = 0 then
          (i + kIterationsPerKernelCall, [launch])
        else
          let r := inpaintLoopAux flags maxIter tiles fuel (i + kIterationsPerKernelCall) (i : ℤ)
          (r.1, launch :: r.2)
      else
        let r := inpaintLoopAux flags maxIter tiles fuel (i + kIterationsPerKernelCall) last
        (r.1, launch :: r.2)
    else (i, [])

/-- The orchestrator loop entered with `i = 0` and
`last_convergence_check_iteration = -9999`.  Fuel `maxIter + 1` is sufficient
(proved below): the loop advances `i` by 4 every step and exits as soon as
`i ≥ maxIter`. -/
def inpaintLoop (flags : ℕ → List Bool) (maxIter : ℕ) (tiles : List (ℕ × ℕ)) :
    ℕ × List LaunchRec :=
  inpaintLoopAux flags maxIter tiles (maxIter + 1) 0 (-9999)

/-- One-step unfolding of `inpaintLoopAux` at positive fuel. -/
theorem inpaintLoopAux_succ (flags : ℕ → List Bool) (maxIter : ℕ)
    (tiles : List (ℕ × ℕ)) (fuel i : ℕ) (last : ℤ) :
    inpaintLoopAux flags maxIter tiles (fuel + 1) i last =
      if i < maxIter then
        if decide ((i : ℤ) - last ≥ 25) = true then
          if (flags i).count true = 0 then
            (i + kIterationsPerKernelCall,
              [⟨i, tiles, decide ((i : ℤ) - last ≥ 25)⟩])
          else
            ((inpaintLoopAux flags maxIter tiles fuel
                (i + kIterationsPerKernelCall) (i : ℤ)).1,
              ⟨i, tiles, decide ((i : ℤ) - last ≥ 25)⟩ ::
                (inpaintLoopAux flags maxIter tiles fuel
                  (i + kIterationsPerKernelCall) (i : ℤ)).2)
        else
          ((inpaintLoopAux flags maxIter tiles fuel
              (i + kIterationsPerKernelCall) last).1,
            ⟨i, tiles, decide ((i : ℤ) - last ≥ 25)⟩ ::
              (inpaintLoopAux flags maxIter tiles fuel
                (i + kIterationsPerKernelCall) last).2)
      else (i, []) := rfl

/-- Adding one unit of fuel does not change the result once the fuel can carry
the loop past `maxIter` (each step advances `i` by 4). -/
theorem inpaintLoopAux_fuel_succ (flags : ℕ → List Bool) (maxIter : ℕ)
    (tiles : List (ℕ × ℕ)) :
    ∀ (fuel i : ℕ), maxIter ≤ i + 4 * fuel → ∀ (last : ℤ),
      inpaintLoopAux flags maxIter tiles (fuel + 1) i last =
        inpaintLoopAux flags maxIter tiles fuel i last := by
  intro fuel
  induction fuel with
  | zero =>
    intro i h last
    have hi : ¬ i < maxIter := by omega
    simp [inpaintLoopAux, hi]
  | succ fuel ih =>
    intro i h last
    have h4 : maxIter ≤ (i + kIterationsPerKernelCall) + 4 * fuel := by
      simp only [kIterationsPerKernelCall]; omega
    conv_lhs => rw [inpaintLoopAux_succ]
    conv_rhs => rw [inpaintLoopAux_succ]
    simp only [ih _ h4]

/-- Fuel-independence: any fuel at least as large as a sufficient one gives the
same result. -/
theorem inpaintLoopAux_fuel_ge (flags : ℕ → List Bool) (maxIter : ℕ)
    (tiles : List (ℕ × ℕ)) (fuel i : ℕ) (h : maxIter ≤ i + 4 * fuel) :
    ∀ (j : ℕ) (last : ℤ),
      inpaintLoopAux flags maxIter tiles (fuel + j) i last =
        inpaintLoopAux flags maxIter tiles fuel i last := by
  intro j
  induction j with
  | zero => intro last; rfl
  | succ j ih =>
    intro last
    have h' : maxIter ≤ i + 4 * (fuel + j) := by omega
    have := inpaintLoopAux_fuel_succ flags maxIter tiles (fuel + j) i h' last
    calc inpaintLoopAux flags maxIter tiles (fuel + (j + 1)) i last
        = inpaintLoopAux flags maxIter tiles ((fuel + j) + 1) i last := by ring_nf
      _ = inpaintLoopAux flags maxIter tiles (fuel + j) i last := this
      _ = inpaintLoopAux flags maxIter tiles fuel i last := ih last

/-- Every launch the loop issues covers exactly the tile list the loop was
entered with: the loop body never modifies the list. -/
theorem inpaintLoopAux_tiles (flags : ℕ → List Bool) (maxIter : ℕ)
    (tiles : List (ℕ × ℕ)) :
    ∀ (fuel i : ℕ) (last : ℤ) (l : LaunchRec),
      l ∈ (inpaintLoopAux flags maxIter tiles fuel i last).2 → l.tiles = tiles := by
  intro fuel
  induction fuel with
  | zero =>
    intro i last l hl
    simp [inpaintLoopAux] at hl
  | succ fuel ih =>
    intro i last l hl
    rw [inpaintLoopAux_succ] at hl
    split at hl
    · split at hl
      · split at hl
        · simp only [List.mem_singleton] at hl
          subst hl; rfl
        · simp only [List.mem_cons] at hl
          rcases hl with hl | hl
          · subst hl; rfl
          · exact ih _ _ _ hl
      · simp only [List.mem_cons] at hl
        rcases hl with hl | hl
        · subst hl; rfl
        · exact ih _ _ _ hl
    · simp at hl

/-- The final iteration count is a multiple of 4 and never exceeds
`max_num_iterations` rounded up to the next multiple of 4. -/
theorem inpaintLoopAux_bound (flags : ℕ → List Bool) (maxIter : ℕ)
    (tiles : List (ℕ × ℕ)) :
    ∀ (fuel i : ℕ) (last : ℤ), 4 ∣ i → i ≤ 4 * ((maxIter + 3) / 4) →
      (inpaintLoopAux flags maxIter tiles fuel i last).1 ≤ 4 * ((maxIter + 3) / 4) ∧
      4 ∣ (inpaintLoopAux flags maxIter tiles fuel i last).1 := by
  intro fuel
  induction fuel with
  | zero =>
    intro i last h4 hle
    simpa [inpaintLoopAux] using ⟨hle, h4⟩
  | succ fuel ih =>
    intro i last h4 hle
    rw [inpaintLoopAux_succ]
    split
    · rename_i hi
      split
      · split
        · refine ⟨?_, ?_⟩ <;> · simp only [kIterationsPerKernelCall]; omega
        · exact ih (i + kIterationsPerKernelCall) i
            (by simp only [kIterationsPerKernelCall]; omega)
            (by simp only [kIterationsPerKernelCall]; omega)
      · exact ih (i + kIterationsPerKernelCall) last
          (by simp only [kIterationsPerKernelCall]; omega)
          (by simp only [kIterationsPerKernelCall]; omega)
    · exact ⟨hle, h4⟩

/-- Invariant connecting the iteration counter and
`last_convergence_check_iteration`: either we are at the very start
(`i = 0`, `last = -9999`), or the last check happened at a multiple of 28 and
`i` is between 4 and 28 iterations past it. -/
def CheckInv (i : ℕ) (last : ℤ) : Prop :=
  (i = 0 ∧ last = -9999) ∨
  (0 ≤ last ∧ last % 28 = 0 ∧ last + 4 ≤ (i : ℤ) ∧ (i : ℤ) ≤ last + 28 ∧ (i : ℤ) % 4 = 0)

/-- Under the invariant, a launch performs a convergence check exactly when its
iteration counter is a multiple of 28 (so at iterations 0, 28, 56, ...). -/
theorem inpaintLoopAux_check_schedule (flags : ℕ → List Bool) (maxIter : ℕ)
    (tiles : List (ℕ × ℕ)) :
    ∀ (fuel i : ℕ) (last : ℤ), CheckInv i last →
      ∀ l ∈ (inpaintLoopAux flags maxIter tiles fuel i last).2,
        l.check = true ↔ l.iter % 28 = 0 := by
  intro fuel
  induction fuel with
  | zero =>
    intro i last _ l hl
    simp [inpaintLoopAux] at hl
  | succ fuel ih =>
    intro i last hinv l hl
    have hcheck : (decide ((i : ℤ) - last ≥ 25) = true) ↔ ((i : ℤ) - last ≥ 25) :=
      decide_eq_true_iff
    have hiff : (decide ((i : ℤ) - last ≥ 25) = true) ↔ i % 28 = 0 := by
      rw [hcheck]
      rcases hinv with ⟨hi, hlast⟩ | ⟨h1, h2, h3, h4, h5⟩
      · subst hi; subst hlast; omega
      · omega
    rw [inpaintLoopAux_succ] at hl
    split at hl
    · rename_i hi
      split at hl
      · rename_i hdec
        split at hl
        · simp only [List.mem_singleton] at hl
          subst hl
          simpa [hdec] using hiff.mp hdec
        · simp only [List.mem_cons] at hl
          rcases hl with hl | hl
          · subst hl
            simpa [hdec] using hiff.mp hdec
          · refine ih _ _ ?_ _ hl
            right
            have h28 : (i : ℤ) % 28 = 0 := by
              have := hiff.mp hdec; omega
            rcases hinv with ⟨hi0, hlast⟩ | ⟨h1, h2, h3, h4, h5⟩
            · subst hi0
              refine ⟨by omega, by omega, ?_, ?_, ?_⟩ <;>
                simp [kIterationsPerKernelCall]
            · refine ⟨by omega, h28, ?_, ?_, ?_⟩ <;>
              · push_cast [kIterationsPerKernelCall]; omega
      · rename_i hdec
        simp only [List.mem_cons] at hl
        rcases hl with hl | hl
        · subst hl
          simp only [hdec]
          simp only [Bool.false_eq_true, false_iff]
          intro h28
          exact hdec (hiff.mpr h28)
        · refine ih _ _ ?_ _ hl
          have hnotc : ¬ ((i : ℤ) - last ≥ 25) := fun h => hdec (hcheck.mpr h)
          rcases hinv with ⟨hi0, hlast⟩ | ⟨h1, h2, h3, h4, h5⟩
          · exfalso; subst hi0; subst hlast; omega
          · right
            refine ⟨h1, h2, ?_, ?_, ?_⟩ <;>
            · push_cast [kIterationsPerKernelCall]; omega
    · simp at hl

/-- C1 — counterexample.  The claim states that at each convergence check every
tile whose max-change flag was not set is dropped from the active-tile list and
subsequent launches are issued only over the remaining tiles.  Concrete run
refuting it: two active tiles, and at the convergence check at iteration 0 the
flag of tile (0,0) is not set (the downloaded flags are [false, true]); yet the
subsequent launch at iteration 4 is still issued over both tiles, including
(0,0). -/
theorem claim1_counterexample :
    ((inpaintLoop (fun i => if i = 0 then [false, true] else [true, true]) 8
        [(0, 0), (24, 0)]).2.map (fun l => (l.iter, l.tiles, l.check))) =
      [(0, [(0, 0), (24, 0)], true), (4, [(0, 0), (24, 0)], false)] := by
  decide

/-- C1 — amended.  The loop never modifies the active-tile list at all: every
launch it issues (checking or not) covers exactly the initial compacted list.
A convergence check only counts the set flags to decide whether to stop; no
tile is ever dropped, so the size of the list sampled at each convergence check
is constant across the run (hence trivially non-increasing, and a tile never
re-enters because it never leaves). -/
theorem claim1_amended (flags : ℕ → List Bool) (maxIter : ℕ)
    (tiles : List (ℕ × ℕ)) :
    ∀ l ∈ (inpaintLoop flags maxIter tiles).2, l.tiles = tiles :=
  fun l hl => inpaintLoopAux_tiles flags maxIter tiles (maxIter + 1) 0 (-9999) l hl

/-- Witness for `claim1_amended` at a concrete run. -/
theorem claim1_amended_witness :
    (⟨0, [(0, 0)], true⟩ : LaunchRec) ∈
      (inpaintLoop (fun _ => [true]) 4 [(0, 0)]).2 ∧
    (⟨0, [(0, 0)], true⟩ : LaunchRec).tiles = [(0, 0)] :=
  ⟨by decide, claim1_amended (fun _ => [true]) 4 [(0, 0)] _ (by decide)⟩

/-- C4: the orchestrator loop terminates — embedded with structural fuel, any
fuel of at least `maxIter + 1` yields the same, stable result — and the
returned iteration count is a multiple of 4 (iterations advance in steps of 4,
and the early-convergence break adds one final step of 4) bounded by
`max_num_iterations` rounded up to the next multiple of 4. -/
theorem claim4_termination_bound (flags : ℕ → List Bool) (maxIter : ℕ)
    (tiles : List (ℕ × ℕ)) :
    (∀ fuel, maxIter + 1 ≤ fuel →
      inpaintLoopAux flags maxIter tiles fuel 0 (-9999) =
        inpaintLoop flags maxIter tiles) ∧
    (inpaintLoop flags maxIter tiles).1 ≤ 4 * ((maxIter + 3) / 4) ∧
    4 ∣ (inpaintLoop flags maxIter tiles).1 := by
  refine ⟨?_, ?_, ?_⟩
  · intro fuel hfuel
    have h0 : maxIter ≤ 0 + 4 * (maxIter + 1) := by omega
    have := inpaintLoopAux_fuel_ge flags maxIter tiles (maxIter + 1) 0 h0
      (fuel - (maxIter + 1)) (-9999)
    rw [inpaintLoop]
    rw [show maxIter + 1 + (fuel - (maxIter + 1)) = fuel by omega] at this
    exact this
  · exact (inpaintLoopAux_bound flags maxIter tiles (maxIter + 1) 0 (-9999)
      ⟨0, rfl⟩ (by omega)).1
  · exact (inpaintLoopAux_bound flags maxIter tiles (maxIter + 1) 0 (-9999)
      ⟨0, rfl⟩ (by omega)).2

/-- Witness for `claim4_termination_bound` at a concrete run. -/
theorem claim4_witness :
    inpaintLoopAux (fun _ => [true]) 5 [(0, 0)] 7 0 (-9999) =
      inpaintLoop (fun _ => [true]) 5 [(0, 0)] ∧
    (inpaintLoop (fun _ => [true]) 5 [(0, 0)]).1 ≤ 4 * ((5 + 3) / 4) ∧
    4 ∣ (inpaintLoop (fun _ => [true]) 5 [(0, 0)]).1 :=
  ⟨(claim4_termination_bound (fun _ => [true]) 5 [(0, 0)]).1 7 (by decide),
   (claim4_termination_bound (fun _ => [true]) 5 [(0, 0)]).2.1,
   (claim4_termination_bound (fun _ => [true]) 5 [(0, 0)]).2.2⟩

/-- C10: since `last_convergence_check_iteration` starts at -9999 and a check
fires when at least 25 iterations have elapsed since the previous one, with
iterations advancing in steps of 4: every launch checks convergence exactly
when its iteration counter is a multiple of 28 — in particular the very first
launch (iteration 0) always checks — and if the first check reports no flag
set, the call returns exactly 4 after that single launch even though tiles
(hence hole pixels) remain active. -/
theorem claim10_check_schedule (flags : ℕ → List Bool) (maxIter : ℕ)
    (tiles : List (ℕ × ℕ)) :
    (∀ l ∈ (inpaintLoop flags maxIter tiles).2, l.check = true ↔ l.iter % 28 = 0) ∧
    (1 ≤ maxIter → (flags 0).count true = 0 →
      inpaintLoop flags maxIter tiles = (4, [⟨0, tiles, true⟩])) := by
  constructor
  · intro l hl
    exact inpaintLoopAux_check_schedule flags maxIter tiles (maxIter + 1) 0 (-9999)
      (Or.inl ⟨rfl, rfl⟩) l hl
  · intro hmax hflags
    have h9 : decide ((0 : ℤ) - (-9999) ≥ 25) = true := by decide
    simp [inpaintLoop, inpaintLoopAux, Nat.lt_of_lt_of_le Nat.zero_lt_one hmax,
      h9, hflags, kIterationsPerKernelCall]

/-- Witness for `claim10_check_schedule` at a concrete run: one active tile,
max 8 iterations, and a first check whose flags are all unset; the call returns
exactly 4 with the single checking launch at iteration 0. -/
theorem claim10_witness :
    ((⟨0, [(0, 0)], true⟩ : LaunchRec).check = true ↔
      (⟨0, [(0, 0)], true⟩ : LaunchRec).iter % 28 = 0) ∧
    inpaintLoop (fun _ => [false]) 8 [(0, 0)] = (4, [⟨0, [(0, 0)], true⟩]) :=
  ⟨(claim10_check_schedule (fun _ => [false]) 8 [(0, 0)]).1 _ (by decide),
   (claim10_check_schedule (fun _ => [false]) 8 [(0, 0)]).2 (by decide) (by decide)⟩

/-- Modelled from the spec: `cuda_util::GetBlockCount` lives in cuda_util.h,
which is not among the sources; the spec derives the tile grid dimensions from
the image size and the fixed per-tile output region, i.e. a ceiling
division. -/
def GetBlockCount (value base : ℕ) : ℕ := (value + base - 1) / base

/-- `thread_is_active = (depth_input == 0)` in
`ConvolutionInpaintingInitializeVariablesKernel` (line 72): the initialization
pass counts a pixel as a pixel-to-inpaint iff its scaled input value is
exactly zero. -/
abbrev initPixelIsActive (factor v : ℚ) : Prop := factor * v = 0

/-- The output sub-region of tile `(bi, bj)` together with the image bounds:
the pixels written by the threads of that block with `kOutput` true (thread
indices in `[kIterationsPerKernelCall, block_size - kIterationsPerKernelCall)`
map one-to-one onto this region). -/
abbrev InitCovers (W H bi bj y x : ℕ) : Prop :=
  bi * kBlockOutputSizeX ≤ x ∧ x < bi * kBlockOutputSizeX + kBlockOutputSizeX ∧
  bj * kBlockOutputSizeY ≤ y ∧ y < bj * kBlockOutputSizeY + kBlockOutputSizeY ∧
  x < W ∧ y < H

/-- Effect of one block of `ConvolutionInpaintingInitializeVariablesKernel` on
the working depth buffer: every `kOutput` thread writes the scaled input value
at its pixel (`depth_map_output(y, x) = depth_input_scaling_factor * tex2D`,
line 71); all other pixels keep their previous content. -/
def initBlockRun (W H : ℕ) (factor : ℚ) (input : ℕ → ℕ → ℚ) (bi bj : ℕ)
    (buf : ℕ → ℕ → ℚ) : ℕ → ℕ → ℚ :=
  fun y x =>
    if InitCovers W H bi bj y x then factor * input y x else buf y x

/-- The per-tile hole count produced by the block reduction of
`ConvolutionInpaintingInitializeVariablesKernel` (line 78-81): the number of
`kOutput` threads of block `(bi, bj)` whose scaled input value is exactly
zero, stored into the uint16 buffer `block_coordinates` (the count is at most
`kBlockOutputSizeX * kBlockOutputSizeY = 576`, so the `% 2 ^ 16` of the store
never truncates). -/
def initBlockCount (W H : ℕ) (factor : ℚ) (input : ℕ → ℕ → ℚ) (bi bj : ℕ) : ℕ :=
  (((List.range kBlockOutputSizeY).map (fun dy =>
    (List.range kBlockOutputSizeX).countP (fun dx =>
      decide (bi * kBlockOutputSizeX + dx < W ∧ bj * kBlockOutputSizeY + dy < H ∧
        initPixelIsActive factor
          (input (bj * kBlockOutputSizeY + dy) (bi * kBlockOutputSizeX + dx)))))).sum)
    % 65536

/-- All tile indices of a `gx × gy` grid in row-major order (y outer, x
inner), the order of both the host compaction scan (lines 390-399) and of the
flat index `blockIdx.x + blockIdx.y * grid_dim_x` the init kernel stores its
counts at. -/
def allBlocks (gx gy : ℕ) : List (ℕ × ℕ) :=
  (List.range gy).flatMap (fun bj => (List.range gx).map (fun bi => (bi, bj)))

/-- The full grid launch of the init kernel: every block writes its output
sub-region (one thread per pixel; regions of distinct blocks are disjoint, so
the fold order is irrelevant). -/
def initOutputBuffer (W H : ℕ) (factor : ℚ) (input buf : ℕ → ℕ → ℚ) :
    ℕ → ℕ → ℚ :=
  (allBlocks (GetBlockCount W kBlockOutputSizeX)
      (GetBlockCount H kBlockOutputSizeY)).foldl
    (fun b p => initBlockRun W H factor input p.1 p.2 b) buf

/-- One step of the host-side compaction loop (lines 390-399): if the tile's
downloaded activity count is positive, append the tile origin in output-pixel
coordinates (stored as uint16, hence `% 2 ^ 16`) and add the count to the
uint32 running total (hence `% 2 ^ 32`). -/
def compactStep (activity : ℕ → ℕ → ℕ) (acc : List (ℕ × ℕ) × ℕ) (p : ℕ × ℕ) :
    List (ℕ × ℕ) × ℕ :=
  if 0 < activity p.1 p.2 then
    (acc.1 ++ [(p.1 * kBlockOutputSizeX % 65536, p.2 * kBlockOutputSizeY % 65536)],
      (acc.2 + activity p.1 p.2) % 4294967296)
  else acc

/-- The host-side Block Compactor: scan the per-tile activity counts in
row-major order, building the dense active-tile origin list and
`pixel_to_inpaint_count`. -/
def compactBlocks (gx gy : ℕ) (activity : ℕ → ℕ → ℕ) : List (ℕ × ℕ) × ℕ :=
  (allBlocks gx gy).foldl (compactStep activity) ([], 0)

/-- The Block Compactor as the claim states it: the list of origin pairs
`(tile_x * output_sub_region_width, tile_y * output_sub_region_height)` of
every tile with count > 0, in row-major scan order, and the sum of all the
nonzero counts. -/
def compactBlocksSpec (gx gy : ℕ) (activity : ℕ → ℕ → ℕ) :
    List (ℕ × ℕ) × ℕ :=
  let act := (allBlocks gx gy).filter (fun p => decide (0 < activity p.1 p.2))
  (act.map (fun p => (p.1 * kBlockOutputSizeX, p.2 * kBlockOutputSizeY)),
    (act.map (fun p => activity p.1 p.2)).sum)

/-- Result of `InpaintDepthMapWithConvolutionCUDA`: the returned iteration
count, the working depth output buffer, the `pixel_to_inpaint_count` output
parameter, and the diffusion launches issued. -/
structure InpaintResult where
  iterations : ℕ
  output : ℕ → ℕ → ℚ
  pixelToInpaintCount : ℕ
  launches : List LaunchRec

/-- Host orchestrator `InpaintDepthMapWithConvolutionCUDA`: initialization
pass, block compaction, early return when no tile is active, otherwise the
iteration loop.  As at `inpaintLoop`, the device-side results of the diffusion
launches are abstracted into the parameters `flags` (per-tile max-change flags
downloaded at a check) and `launchEff` (effect of one launch on the working
buffer); the diffusion kernels themselves are embedded concretely below. -/
def InpaintDepthMapWithConvolutionCUDA (flags : ℕ → List Bool)
    (launchEff : List (ℕ × ℕ) → (ℕ → ℕ → ℚ) → (ℕ → ℕ → ℚ))
    (maxIter : ℕ) (factor : ℚ) (input : ℕ → ℕ → ℚ) (W H : ℕ)
    (buf : ℕ → ℕ → ℚ) : InpaintResult :=
  let gx := GetBlockCount W kBlockOutputSizeX
  let gy := GetBlockCount H kBlockOutputSizeY
  let out := initOutputBuffer W H factor input buf
  let comp := compactBlocks gx gy (initBlockCount W H factor input)
  if comp.1.length = 0 then
    ⟨0, out, comp.2, []⟩
  else
    let r := inpaintLoop flags maxIter comp.1
    ⟨r.1, r.2.foldl (fun b l => launchEff l.tiles b) out, comp.2, r.2⟩

theorem mem_allBlocks (gx gy : ℕ) (p : ℕ × ℕ) :
    p ∈ allBlocks gx gy ↔ p.1 < gx ∧ p.2 < gy := by
  rcases p with ⟨a, b⟩
  simp only [allBlocks, List.mem_flatMap, List.mem_map, List.mem_range,
    Prod.mk.injEq]
  constructor
  · rintro ⟨bj, hbj, bi, hbi, h1, h2⟩
    subst h1; subst h2; exact ⟨hbi, hbj⟩
  · rintro ⟨h1, h2⟩
    exact ⟨b, h2, a, ⟨h1, rfl, rfl⟩⟩

/-- Value of the completed init-kernel launch at one pixel: the scaled input
if some block of the list covers the pixel, the previous buffer content
otherwise. -/
theorem initFold_value (W H : ℕ) (factor : ℚ) (input : ℕ → ℕ → ℚ) (y x : ℕ) :
    ∀ (L : List (ℕ × ℕ)) (buf : ℕ → ℕ → ℚ),
      (L.foldl (fun b p => initBlockRun W H factor input p.1 p.2 b) buf) y x =
        if ∃ p ∈ L, InitCovers W H p.1 p.2 y x then factor * input y x
        else buf y x := by
  intro L
  induction L with
  | nil => intro buf; simp
  | cons p L ih =>
    intro buf
    rw [List.foldl_cons, ih]
    by_cases hL : ∃ q ∈ L, InitCovers W H q.1 q.2 y x
    · have hcons : ∃ q ∈ p :: L, InitCovers W H q.1 q.2 y x := by
        rcases hL with ⟨q, hq, hcov⟩
        exact ⟨q, List.mem_cons_of_mem _ hq, hcov⟩
      rw [if_pos hL, if_pos hcons]
    · by_cases hp : InitCovers W H p.1 p.2 y x
      · have hcons : ∃ q ∈ p :: L, InitCovers W H q.1 q.2 y x :=
          ⟨p, List.mem_cons_self _ _, hp⟩
        rw [if_neg hL, if_pos hcons]
        simp only [initBlockRun]
        rw [if_pos hp]
      · have hcons : ¬ ∃ q ∈ p :: L, InitCovers W H q.1 q.2 y x := by
          rintro ⟨q, hq, hcov⟩
          rcases List.mem_cons.mp hq with rfl | hq'
          · exact hp hcov
          · exact hL ⟨q, hq', hcov⟩
        rw [if_neg hL, if_neg hcons]
        simp only [initBlockRun]
        rw [if_neg hp]

/-- Every in-bounds pixel is covered by the block `(x / 24, y / 24)` of the
full grid, so the init launch writes the scaled input everywhere in the
image. -/
theorem initOutputBuffer_value (W H : ℕ) (factor : ℚ)
    (input buf : ℕ → ℕ → ℚ) (y x : ℕ) (hx : x < W) (hy : y < H) :
    initOutputBuffer W H factor input buf y x = factor * input y x := by
  rw [initOutputBuffer, initFold_value]
  have hcov : ∃ p ∈ allBlocks (GetBlockCount W kBlockOutputSizeX)
      (GetBlockCount H kBlockOutputSizeY),
      InitCovers W H p.1 p.2 y x := by
    refine ⟨(x / kBlockOutputSizeX, y / kBlockOutputSizeY), ?_, ?_⟩
    · rw [mem_allBlocks]
      constructor <;>
      · simp only [GetBlockCount, kBlockOutputSizeX, kBlockOutputSizeY,
          kBlockWidth, kBlockHeight, kIterationsPerKernelCall] at *
        omega
    · simp only [InitCovers, kBlockOutputSizeX, kBlockOutputSizeY,
        kBlockWidth, kBlockHeight, kIterationsPerKernelCall] at *
      omega
  simp [hcov]

/-- With no active pixel anywhere in the image, every per-tile count is 0. -/
theorem initBlockCount_zero (W H : ℕ) (factor : ℚ) (input : ℕ → ℕ → ℚ)
    (h : ∀ y, y < H → ∀ x, x < W → ¬ initPixelIsActive factor (input y x))
    (bi bj : ℕ) : initBlockCount W H factor input bi bj = 0 := by
  rw [initBlockCount]
  have : ∀ dy ∈ List.range kBlockOutputSizeY,
      (List.range kBlockOutputSizeX).countP (fun dx =>
        decide (bi * kBlockOutputSizeX + dx < W ∧
          bj * kBlockOutputSizeY + dy < H ∧
          initPixelIsActive factor
            (input (bj * kBlockOutputSizeY + dy)
              (bi * kBlockOutputSizeX + dx)))) = 0 := by
    intro dy _
    rw [List.countP_eq_zero]
    intro dx _
    simp only [decide_eq_true_eq]
    rintro ⟨h1, h2, h3⟩
    exact h _ h2 _ h1 h3
  have hsum : ((List.range kBlockOutputSizeY).map (fun dy =>
      (List.range kBlockOutputSizeX).countP (fun dx =>
        decide (bi * kBlockOutputSizeX + dx < W ∧
          bj * kBlockOutputSizeY + dy < H ∧
          initPixelIsActive factor
            (input (bj * kBlockOutputSizeY + dy)
              (bi * kBlockOutputSizeX + dx)))))).sum = 0 := by
    apply List.sum_eq_zero
    intro c hc
    rcases List.mem_map.mp hc with ⟨dy, hdy, rfl⟩
    exact this dy hdy
  rw [hsum]

/-- Folding the compaction step over tiles with all-zero activity leaves the
accumulator unchanged. -/
theorem compactFold_zero (activity : ℕ → ℕ → ℕ) :
    ∀ (L : List (ℕ × ℕ)), (∀ p ∈ L, activity p.1 p.2 = 0) →
      ∀ acc, L.foldl (compactStep activity) acc = acc := by
  intro L
  induction L with
  | nil => intro _ acc; rfl
  | cons p L ih =>
    intro h acc
    rw [List.foldl_cons]
    have hp : activity p.1 p.2 = 0 := h p (List.mem_cons_self _ _)
    have hstep : compactStep activity acc p = acc := by
      rw [compactStep, hp]
      simp
    rw [hstep]
    exact ih (fun q hq => h q (List.mem_cons_of_mem _ hq)) acc

/-- The compaction fold computed against the declarative description: filter
the scan-order tile list by positive count, map to origins, sum the counts —
valid as long as no uint16 origin store and no uint32 count addition
truncates. -/
theorem compactFold (activity : ℕ → ℕ → ℕ) :
    ∀ (L : List (ℕ × ℕ)) (l0 : List (ℕ × ℕ)) (n0 : ℕ),
      (∀ p ∈ L, p.1 * kBlockOutputSizeX < 65536 ∧
        p.2 * kBlockOutputSizeY < 65536) →
      n0 + ((L.filter (fun p => decide (0 < activity p.1 p.2))).map
        (fun p => activity p.1 p.2)).sum < 4294967296 →
      L.foldl (compactStep activity) (l0, n0) =
        (l0 ++ (L.filter (fun p => decide (0 < activity p.1 p.2))).map
          (fun p => (p.1 * kBlockOutputSizeX, p.2 * kBlockOutputSizeY)),
         n0 + ((L.filter (fun p => decide (0 < activity p.1 p.2))).map
          (fun p => activity p.1 p.2)).sum) := by
  intro L
  induction L with
  | nil => intro l0 n0 _ _; simp
  | cons p L ih =>
    intro l0 n0 hb hs
    have hbp := hb p (List.mem_cons_self _ _)
    have hb' := fun q hq => hb q (List.mem_cons_of_mem _ hq)
    rw [List.foldl_cons]
    by_cases hp : 0 < activity p.1 p.2
    · have hfil : (p :: L).filter (fun q => decide (0 < activity q.1 q.2)) =
          p :: L.filter (fun q => decide (0 < activity q.1 q.2)) := by
        simp [List.filter_cons, hp]
      rw [hfil] at hs ⊢
      simp only [List.map_cons, List.sum_cons] at hs ⊢
      have hstep : compactStep activity (l0, n0) p =
          (l0 ++ [(p.1 * kBlockOutputSizeX, p.2 * kBlockOutputSizeY)],
           n0 + activity p.1 p.2) := by
        rw [compactStep, if_pos hp]
        rw [Nat.mod_eq_of_lt hbp.1, Nat.mod_eq_of_lt hbp.2,
          Nat.mod_eq_of_lt (by omega)]
      rw [hstep, ih _ _ hb' (by omega)]
      rw [List.append_assoc, List.singleton_append]
      rw [Nat.add_assoc]
    · have hfil : (p :: L).filter (fun q => decide (0 < activity q.1 q.2)) =
          L.filter (fun q => decide (0 < activity q.1 q.2)) := by
        simp [List.filter_cons, hp]
      rw [hfil] at hs ⊢
      have hstep : compactStep activity (l0, n0) p = (l0, n0) := by
        rw [compactStep, if_neg hp]
      rw [hstep, ih _ _ hb' hs]

/-- C7: the host compaction produces exactly the list of origin pairs
`(tile_x * output_sub_region_width, tile_y * output_sub_region_height)` of
every tile with positive count, in row-major scan order (y outer, x inner),
and sets `pixel_to_inpaint_count` to the sum of the nonzero counts — under
the machine-width side conditions that every tile origin fits its uint16
store and the total fits uint32. -/
theorem claim7_compaction (gx gy : ℕ) (activity : ℕ → ℕ → ℕ)
    (hx : gx * kBlockOutputSizeX ≤ 65536) (hy : gy * kBlockOutputSizeY ≤ 65536)
    (hsum : (compactBlocksSpec gx gy activity).2 < 4294967296) :
    compactBlocks gx gy activity = compactBlocksSpec gx gy activity := by
  have hb : ∀ p ∈ allBlocks gx gy, p.1 * kBlockOutputSizeX < 65536 ∧
      p.2 * kBlockOutputSizeY < 65536 := by
    intro p hp
    rw [mem_allBlocks] at hp
    simp only [kBlockOutputSizeX, kBlockOutputSizeY, kBlockWidth, kBlockHeight,
      kIterationsPerKernelCall] at hx hy ⊢
    omega
  have hs : 0 + (((allBlocks gx gy).filter
      (fun p => decide (0 < activity p.1 p.2))).map
      (fun p => activity p.1 p.2)).sum < 4294967296 := by
    simpa [compactBlocksSpec] using hsum
  rw [compactBlocks, compactFold activity (allBlocks gx gy) [] 0 hb hs]
  simp [compactBlocksSpec]

/-- Witness for `claim7_compaction` on a concrete 2×2 tile grid with counts
1, 0, 2, 0. -/
theorem claim7_witness :
    compactBlocks 2 2 (fun bi bj => if bi = 0 then bj + 1 else 0) =
      compactBlocksSpec 2 2 (fun bi bj => if bi = 0 then bj + 1 else 0) :=
  claim7_compaction 2 2 _ (by decide) (by decide) (by decide)

/-- C3: on an input depth map with zero hole pixels (no pixel whose scaled
value is exactly 0), the call returns 0 iterations, issues no diffusion
launch, sets `pixel_to_inpaint_count` to 0, and leaves the output buffer
equal to the input scaled by `depth_input_scaling_factor` at every pixel. -/
theorem claim3_noop (flags : ℕ → List Bool)
    (launchEff : List (ℕ × ℕ) → (ℕ → ℕ → ℚ) → (ℕ → ℕ → ℚ))
    (maxIter W H : ℕ) (factor : ℚ) (input buf : ℕ → ℕ → ℚ)
    (h : ∀ y, y < H → ∀ x, x < W → ¬ initPixelIsActive factor (input y x)) :
    (InpaintDepthMapWithConvolutionCUDA flags launchEff maxIter factor input
      W H buf).iterations = 0 ∧
    (InpaintDepthMapWithConvolutionCUDA flags launchEff maxIter factor input
      W H buf).launches = [] ∧
    (InpaintDepthMapWithConvolutionCUDA flags launchEff maxIter factor input
      W H buf).pixelToInpaintCount = 0 ∧
    (∀ y, y < H → ∀ x, x < W →
      (InpaintDepthMapWithConvolutionCUDA flags launchEff maxIter factor input
        W H buf).output y x = factor * input y x) := by
  have hact : ∀ p ∈ allBlocks (GetBlockCount W kBlockOutputSizeX)
      (GetBlockCount H kBlockOutputSizeY),
      initBlockCount W H factor input p.1 p.2 = 0 :=
    fun p _ => initBlockCount_zero W H factor input h p.1 p.2
  have hcomp : compactBlocks (GetBlockCount W kBlockOutputSizeX)
      (GetBlockCount H kBlockOutputSizeY)
      (initBlockCount W H factor input) = ([], 0) := by
    rw [compactBlocks]
    exact compactFold_zero _ _ hact ([], 0)
  have hres : InpaintDepthMapWithConvolutionCUDA flags launchEff maxIter factor
      input W H buf =
      ⟨0, initOutputBuffer W H factor input buf, 0, []⟩ := by
    rw [InpaintDepthMapWithConvolutionCUDA]
    simp only [hcomp, List.length_nil]
    rfl
  rw [hres]
  refine ⟨rfl, rfl, rfl, ?_⟩
  intro y hy x hx
  exact initOutputBuffer_value W H factor input buf y x hx hy

/-- Witness for `claim3_noop` on a concrete hole-free 1×1 depth map. -/
theorem claim3_witness :
    (InpaintDepthMapWithConvolutionCUDA (fun _ => []) (fun _ b => b) 10 1
      (fun _ _ => (5 : ℚ)) 1 1 (fun _ _ => 0)).iterations = 0 ∧
    (InpaintDepthMapWithConvolutionCUDA (fun _ => []) (fun _ b => b) 10 1
      (fun _ _ => (5 : ℚ)) 1 1 (fun _ _ => 0)).launches = [] ∧
    (InpaintDepthMapWithConvolutionCUDA (fun _ => []) (fun _ b => b) 10 1
      (fun _ _ => (5 : ℚ)) 1 1 (fun _ _ => 0)).pixelToInpaintCount = 0 ∧
    (∀ y, y < 1 → ∀ x, x < 1 →
      (InpaintDepthMapWithConvolutionCUDA (fun _ => []) (fun _ b => b) 10 1
        (fun _ _ => (5 : ℚ)) 1 1 (fun _ _ => 0)).output y x =
        1 * (fun _ _ => (5 : ℚ)) y x) :=
  claim3_noop (fun _ => []) (fun _ b => b) 10 1 1 1 (fun _ _ => (5 : ℚ))
    (fun _ _ => 0) (by intro y _ x _; norm_num [initPixelIsActive])

/-- Kernel coefficient `0.073235f` (diagonal neighbors) as a decimal
rational. -/
def wDiag : ℚ := 73235 / 1000000

/-- Kernel coefficient `0.176765f` (axis-aligned neighbors). -/
def wAxis : ℚ := 176765 / 1000000

/-- Lines 91-92 of `ConvolutionInpaintingKernel`:
`max(0, min(width - 1, block_coordinates(...) + threadIdx - kIterationsPerKernelCall))`.
The arithmetic is C *unsigned* arithmetic (`block_coordinates` holds uint16,
`threadIdx` is unsigned): when `o + t < kIterationsPerKernelCall` the
subtraction wraps around to at least `2^32 - 4`, the (unsigned) `min` then
picks `width - 1` and the `max` is the identity; otherwise the expression is
the ordinary clamp of `o + t - kIterationsPerKernelCall` into
`[0, width - 1]`. -/
def clampedCoordU (w o t : ℕ) : ℕ :=
  if o + t < kIterationsPerKernelCall then w - 1
  else min (w - 1) (o + t - kIterationsPerKernelCall)

/-- Line 94: `kIsPixelToInpaint = (tex2D<float>(depth_map_input, x, y) <= 0)`
— the unweighted diffusion kernel classifies a pixel as a hole iff its raw
input-texture value is at most zero. -/
abbrev unweightedIsPixelToInpaint (v : ℚ) : Prop := v ≤ 0

/-- Line 237: the weighted diffusion kernel uses the same `<= 0` hole test on
the raw input texture. -/
abbrev weightedIsPixelToInpaint (v : ℚ) : Prop := v ≤ 0

/-- Lines 95-101: `kOutput` of the unweighted kernel.  For threads with
`threadIdx ≥ kIterationsPerKernelCall` the unsigned `block_coordinates + tid -
kIterationsPerKernelCall < width` comparison coincides with the ℕ
subtraction used here; for smaller thread indices the first conjuncts are
false either way. -/
abbrev unweightedKOutput (bsx bsy W H ox oy tx ty : ℕ) : Prop :=
  kIterationsPerKernelCall ≤ tx ∧ kIterationsPerKernelCall ≤ ty ∧
  tx < bsx - kIterationsPerKernelCall ∧ ty < bsy - kIterationsPerKernelCall ∧
  ox + tx - kIterationsPerKernelCall < W ∧ oy + ty - kIterationsPerKernelCall < H

/-- One neighbor's contribution to the weighted average (lines 122-127 and
analogous):
`pixel_weight = (cond && temp_depth > 0) * w;`
`result += pixel_weight * temp_depth; weight += pixel_weight`. -/
def contrib (cond : Prop) [Decidable cond] (w temp : ℚ) : ℚ × ℚ :=
  ((if cond ∧ 0 < temp then w else 0) * temp,
   if cond ∧ 0 < temp then w else 0)

/-- Componentwise accumulation of `(result, weight)` pairs. -/
def addPair (p q : ℚ × ℚ) : ℚ × ℚ := (p.1 + q.1, p.2 + q.2)

/-- The 8-neighbor accumulation of the unweighted kernel (lines 122-176):
`x`, `y` are the thread's clamped image coordinates (used in the bounds
conditions), `s` is the shared-memory tile indexed by thread coordinates. -/
def unweightedAccum (W H x y : ℕ) (s : ℕ → ℕ → ℚ) (tx ty : ℕ) : ℚ × ℚ :=
  addPair (addPair (addPair (addPair (addPair (addPair (addPair
    (contrib (0 < y ∧ 0 < x) wDiag (s (tx - 1) (ty - 1)))
    (contrib (0 < y) wAxis (s tx (ty - 1))))
    (contrib (0 < y ∧ x < W - 1) wDiag (s (tx + 1) (ty - 1))))
    (contrib (0 < x) wAxis (s (tx - 1) ty)))
    (contrib (x < W - 1) wAxis (s (tx + 1) ty)))
    (contrib (y < H - 1 ∧ 0 < x) wDiag (s (tx - 1) (ty + 1))))
    (contrib (y < H - 1) wAxis (s tx (ty + 1))))
    (contrib (y < H - 1 ∧ x < W - 1) wDiag (s (tx + 1) (ty + 1)))

/-- The `(result, weight)` pair a thread of the unweighted kernel holds going
into the write-back decision of one sub-iteration: the accumulation happens
only for hole pixels strictly inside the tile (lines 117-121); all other
threads keep `result = weight = 0` (lines 113-114). -/
def unweightedGatedAccum (bsx bsy W H : ℕ) (input : ℕ → ℕ → ℚ) (ox oy : ℕ)
    (s : ℕ → ℕ → ℚ) (tx ty : ℕ) : ℚ × ℚ :=
  if unweightedIsPixelToInpaint
      (input (clampedCoordU H oy ty) (clampedCoordU W ox tx)) ∧
     (0 < tx ∧ 0 < ty ∧ tx < bsx - 1 ∧ ty < bsy - 1) then
    unweightedAccum W H (clampedCoordU W ox tx) (clampedCoordU H oy ty) s tx ty
  else (0, 0)

/-- One diffusion sub-iteration of the unweighted kernel on the shared tile
(lines 112-212 without the convergence bookkeeping): reads happen before the
barrier and writes after it, so the update is synchronous;
`new_depth = result / weight` is written back into shared memory iff the pixel
is a hole and the accumulated weight is strictly positive (lines 208-210). -/
def unweightedStep (bsx bsy W H : ℕ) (input : ℕ → ℕ → ℚ) (ox oy : ℕ)
    (s : ℕ → ℕ → ℚ) : ℕ → ℕ → ℚ := fun tx ty =>
  let a := unweightedGatedAccum bsx bsy W H input ox oy s tx ty
  if unweightedIsPixelToInpaint
      (input (clampedCoordU H oy ty) (clampedCoordU W ox tx)) ∧ 0 < a.2 then
    a.1 / a.2
  else s tx ty

/-- The shared-memory load of line 106: every thread stores the working
buffer's value at its clamped image coordinates. -/
def unweightedSharedInit (W H ox oy : ℕ) (buf : ℕ → ℕ → ℚ) : ℕ → ℕ → ℚ :=
  fun tx ty => buf (clampedCoordU H oy ty) (clampedCoordU W ox tx)

/-- Shared-memory tile contents after `n` sub-iterations of the unweighted
kernel. -/
def unweightedIterState (bsx bsy W H : ℕ) (input : ℕ → ℕ → ℚ) (ox oy : ℕ)
    (buf : ℕ → ℕ → ℚ) (n : ℕ) : ℕ → ℕ → ℚ :=
  (unweightedStep bsx bsy W H input ox oy)^[n] (unweightedSharedInit W H ox oy buf)

/-- One block of the unweighted kernel as a transformation of the working
buffer: after `kIterationsPerKernelCall` sub-iterations, each thread with
`kOutput && kIsPixelToInpaint` writes its shared-memory value back (lines
214-216).  A thread `(tx, ty)` with `kOutput` maps bijectively onto the pixel
`(ox + tx - 4, oy + ty - 4)` of the tile's output region, where its clamped
coordinates equal the pixel coordinates. -/
def unweightedKernelBlock (bsx bsy W H : ℕ) (input : ℕ → ℕ → ℚ) (ox oy : ℕ)
    (buf : ℕ → ℕ → ℚ) : ℕ → ℕ → ℚ := fun y x =>
  if ox ≤ x ∧ x < ox + (bsx - 2 * kIterationsPerKernelCall) ∧
     oy ≤ y ∧ y < oy + (bsy - 2 * kIterationsPerKernelCall) ∧
     x < W ∧ y < H ∧ unweightedIsPixelToInpaint (input y x) then
    unweightedIterState bsx bsy W H input ox oy buf kIterationsPerKernelCall
      (x - ox + kIterationsPerKernelCall) (y - oy + kIterationsPerKernelCall)
  else buf y x

/-- The relative change computed by the convergence test of the unweighted
kernel (lines 194-197) at the final sub-iteration:
`change = fabs((new_depth - depth_shared[i]) / depth_shared[i])` for threads
with `kOutput && kIsPixelToInpaint`, where `depth_shared` holds the state
after the first `kIterationsPerKernelCall - 1` sub-iterations; the division
has no guard against a zero denominator. -/
def unweightedChange (bsx bsy W H : ℕ) (input : ℕ → ℕ → ℚ) (ox oy : ℕ)
    (buf : ℕ → ℕ → ℚ) (tx ty : ℕ) : ℚ :=
  let s := unweightedIterState bsx bsy W H input ox oy buf
    (kIterationsPerKernelCall - 1)
  let a := unweightedGatedAccum bsx bsy W H input ox oy s tx ty
  if unweightedKOutput bsx bsy W H ox oy tx ty ∧
     unweightedIsPixelToInpaint
       (input (clampedCoordU H oy ty) (clampedCoordU W ox tx)) then
    |(a.1 / a.2 - s tx ty) / s tx ty|
  else 0

/-- A `(result, weight)` pair with both components non-negative and a
positive weight forcing a positive result — the shape every neighbor
contribution and their sums have. -/
def GoodPair (p : ℚ × ℚ) : Prop := 0 ≤ p.1 ∧ 0 ≤ p.2 ∧ (0 < p.2 → 0 < p.1)

theorem goodPair_add {p q : ℚ × ℚ} (hp : GoodPair p) (hq : GoodPair q) :
    GoodPair (addPair p q) := by
  obtain ⟨hp1, hp2, hp3⟩ := hp
  obtain ⟨hq1, hq2, hq3⟩ := hq
  refine ⟨add_nonneg hp1 hq1, add_nonneg hp2 hq2, ?_⟩
  intro h
  simp only [addPair] at h ⊢
  rcases lt_or_eq_of_le hp2 with hp2' | hp2'
  · exact add_pos_of_pos_of_nonneg (hp3 hp2') hq1
  · have hq2' : 0 < q.2 := by rw [← hp2'] at h; simpa using h
    exact add_pos_of_nonneg_of_pos hp1 (hq3 hq2')

theorem contrib_goodPair (cond : Prop) [Decidable cond] {w : ℚ} (hw : 0 ≤ w)
    (temp : ℚ) : GoodPair (contrib cond w temp) := by
  rw [contrib, GoodPair]
  by_cases h : cond ∧ 0 < temp
  · rw [if_pos h]
    exact ⟨mul_nonneg hw h.2.le, hw, fun hpos => mul_pos hpos h.2⟩
  · rw [if_neg h]
    simp

theorem contrib_snd_of_nonpos (cond : Prop) [Decidable cond] (w : ℚ)
    {temp : ℚ} (h : temp ≤ 0) : (contrib cond w temp).2 = 0 := by
  rw [contrib]
  simp only
  rw [if_neg]
  rintro ⟨-, hlt⟩
  exact absurd hlt (not_lt.mpr h)

theorem wDiag_nonneg : (0 : ℚ) ≤ wDiag := by norm_num [wDiag]

theorem wAxis_nonneg : (0 : ℚ) ≤ wAxis := by norm_num [wAxis]

theorem wAxis_pos : (0 : ℚ) < wAxis := by norm_num [wAxis]

theorem unweightedAccum_goodPair (W H x y : ℕ) (s : ℕ → ℕ → ℚ) (tx ty : ℕ) :
    GoodPair (unweightedAccum W H x y s tx ty) :=
  goodPair_add (goodPair_add (goodPair_add (goodPair_add (goodPair_add
    (goodPair_add (goodPair_add
      (contrib_goodPair _ wDiag_nonneg _) (contrib_goodPair _ wAxis_nonneg _))
      (contrib_goodPair _ wDiag_nonneg _)) (contrib_goodPair _ wAxis_nonneg _))
      (contrib_goodPair _ wAxis_nonneg _)) (contrib_goodPair _ wDiag_nonneg _))
      (contrib_goodPair _ wAxis_nonneg _)) (contrib_goodPair _ wDiag_nonneg _)

theorem unweightedGatedAccum_goodPair (bsx bsy W H : ℕ) (input : ℕ → ℕ → ℚ)
    (ox oy : ℕ) (s : ℕ → ℕ → ℚ) (tx ty : ℕ) :
    GoodPair (unweightedGatedAccum bsx bsy W H input ox oy s tx ty) := by
  rw [unweightedGatedAccum]
  split
  · exact unweightedAccum_goodPair _ _ _ _ _ _ _
  · exact ⟨le_refl 0, le_refl 0, fun h => absurd h (lt_irrefl 0)⟩

/-- If all 8 neighbors hold non-positive values, the accumulated weight is
zero. -/
theorem unweightedAccum_snd_zero (W H x y : ℕ) (s : ℕ → ℕ → ℚ) (tx ty : ℕ)
    (h1 : s (tx - 1) (ty - 1) ≤ 0) (h2 : s tx (ty - 1) ≤ 0)
    (h3 : s (tx + 1) (ty - 1) ≤ 0) (h4 : s (tx - 1) ty ≤ 0)
    (h5 : s (tx + 1) ty ≤ 0) (h6 : s (tx - 1) (ty + 1) ≤ 0)
    (h7 : s tx (ty + 1) ≤ 0) (h8 : s (tx + 1) (ty + 1) ≤ 0) :
    (unweightedAccum W H x y s tx ty).2 = 0 := by
  unfold unweightedAccum
  simp only [addPair]
  rw [contrib_snd_of_nonpos _ _ h1, contrib_snd_of_nonpos _ _ h2,
    contrib_snd_of_nonpos _ _ h3, contrib_snd_of_nonpos _ _ h4,
    contrib_snd_of_nonpos _ _ h5, contrib_snd_of_nonpos _ _ h6,
    contrib_snd_of_nonpos _ _ h7, contrib_snd_of_nonpos _ _ h8]
  norm_num

theorem unweightedGatedAccum_snd_zero (bsx bsy W H : ℕ) (input : ℕ → ℕ → ℚ)
    (ox oy : ℕ) (s : ℕ → ℕ → ℚ) (tx ty : ℕ)
    (h1 : s (tx - 1) (ty - 1) ≤ 0) (h2 : s tx (ty - 1) ≤ 0)
    (h3 : s (tx + 1) (ty - 1) ≤ 0) (h4 : s (tx - 1) ty ≤ 0)
    (h5 : s (tx + 1) ty ≤ 0) (h6 : s (tx - 1) (ty + 1) ≤ 0)
    (h7 : s tx (ty + 1) ≤ 0) (h8 : s (tx + 1) (ty + 1) ≤ 0) :
    (unweightedGatedAccum bsx bsy W H input ox oy s tx ty).2 = 0 := by
  rw [unweightedGatedAccum]
  split
  · exact unweightedAccum_snd_zero _ _ _ _ _ _ _ h1 h2 h3 h4 h5 h6 h7 h8
  · rfl

/-- A sub-iteration leaves a cell unchanged when its gated accumulated weight
is not strictly positive (the write gate of lines 208-210). -/
theorem unweightedStep_eq_self (bsx bsy W H : ℕ) (input : ℕ → ℕ → ℚ)
    (ox oy : ℕ) (s : ℕ → ℕ → ℚ) (tx ty : ℕ)
    (h : ¬ (unweightedIsPixelToInpaint
        (input (clampedCoordU H oy ty) (clampedCoordU W ox tx)) ∧
      0 < (unweightedGatedAccum bsx bsy W H input ox oy s tx ty).2)) :
    unweightedStep bsx bsy W H input ox oy s tx ty = s tx ty := by
  simp only [unweightedStep]
  rw [if_neg h]

/-- A sub-iteration writes a strictly positive value whenever it writes at
all: the written value is `result / weight` with both strictly positive. -/
theorem unweightedStep_pos (bsx bsy W H : ℕ) (input : ℕ → ℕ → ℚ)
    (ox oy : ℕ) (s : ℕ → ℕ → ℚ) (tx ty : ℕ)
    (hh : unweightedIsPixelToInpaint
      (input (clampedCoordU H oy ty) (clampedCoordU W ox tx)))
    (hpos : 0 < (unweightedGatedAccum bsx bsy W H input ox oy s tx ty).2) :
    0 < unweightedStep bsx bsy W H input ox oy s tx ty := by
  simp only [unweightedStep]
  rw [if_pos ⟨hh, hpos⟩]
  exact div_pos
    ((unweightedGatedAccum_goodPair bsx bsy W H input ox oy s tx ty).2.2 hpos)
    hpos

/-- A hole pixel strictly inside the tile whose left neighbor holds a
positive value accumulates a strictly positive weight. -/
theorem unweightedGatedAccum_snd_pos_left (bsx bsy W H : ℕ)
    (input : ℕ → ℕ → ℚ) (ox oy : ℕ) (s : ℕ → ℕ → ℚ) (tx ty : ℕ)
    (hh : unweightedIsPixelToInpaint
      (input (clampedCoordU H oy ty) (clampedCoordU W ox tx)))
    (hint : 0 < tx ∧ 0 < ty ∧ tx < bsx - 1 ∧ ty < bsy - 1)
    (hx : 0 < clampedCoordU W ox tx) (hleft : 0 < s (tx - 1) ty) :
    0 < (unweightedGatedAccum bsx bsy W H input ox oy s tx ty).2 := by
  rw [unweightedGatedAccum, if_pos ⟨hh, hint⟩]
  have h4 : (contrib (0 < clampedCoordU W ox tx) wAxis (s (tx - 1) ty)).2 =
      wAxis := by
    rw [contrib]
    simp only
    rw [if_pos ⟨hx, hleft⟩]
  have n1 := (contrib_goodPair (0 < clampedCoordU H oy ty ∧
    0 < clampedCoordU W ox tx) wDiag_nonneg (s (tx - 1) (ty - 1))).2.1
  have n2 := (contrib_goodPair (0 < clampedCoordU H oy ty) wAxis_nonneg
    (s tx (ty - 1))).2.1
  have n3 := (contrib_goodPair (0 < clampedCoordU H oy ty ∧
    clampedCoordU W ox tx < W - 1) wDiag_nonneg (s (tx + 1) (ty - 1))).2.1
  have n5 := (contrib_goodPair (clampedCoordU W ox tx < W - 1) wAxis_nonneg
    (s (tx + 1) ty)).2.1
  have n6 := (contrib_goodPair (clampedCoordU H oy ty < H - 1 ∧
    0 < clampedCoordU W ox tx) wDiag_nonneg (s (tx - 1) (ty + 1))).2.1
  have n7 := (contrib_goodPair (clampedCoordU H oy ty < H - 1) wAxis_nonneg
    (s tx (ty + 1))).2.1
  have n8 := (contrib_goodPair (clampedCoordU H oy ty < H - 1 ∧
    clampedCoordU W ox tx < W - 1) wDiag_nonneg (s (tx + 1) (ty + 1))).2.1
  unfold unweightedAccum
  simp only [addPair]
  rw [h4]
  have := wAxis_pos
  linarith

/-- Every shared-memory cell after any number of sub-iterations either still
holds its initially loaded value or holds a strictly positive value. -/
theorem unweightedIterState_mem (bsx bsy W H : ℕ) (input : ℕ → ℕ → ℚ)
    (ox oy : ℕ) (buf : ℕ → ℕ → ℚ) (n tx ty : ℕ) :
    unweightedIterState bsx bsy W H input ox oy buf n tx ty =
      unweightedSharedInit W H ox oy buf tx ty ∨
    0 < unweightedIterState bsx bsy W H input ox oy buf n tx ty := by
  induction n with
  | zero => left; rfl
  | succ n ih =>
    rw [unweightedIterState, Function.iterate_succ_apply']
    by_cases hgate : unweightedIsPixelToInpaint
        (input (clampedCoordU H oy ty) (clampedCoordU W ox tx)) ∧
        0 < (unweightedGatedAccum bsx bsy W H input ox oy
          ((unweightedStep bsx bsy W H input ox oy)^[n]
            (unweightedSharedInit W H ox oy buf)) tx ty).2
    · right
      exact unweightedStep_pos bsx bsy W H input ox oy _ tx ty hgate.1 hgate.2
    · have heq := unweightedStep_eq_self bsx bsy W H input ox oy
        ((unweightedStep bsx bsy W H input ox oy)^[n]
          (unweightedSharedInit W H ox oy buf)) tx ty hgate
      rw [heq]
      exact ih

theorem unweightedIterState_succ (bsx bsy W H : ℕ) (input : ℕ → ℕ → ℚ)
    (ox oy : ℕ) (buf : ℕ → ℕ → ℚ) (n : ℕ) :
    unweightedIterState bsx bsy W H input ox oy buf (n + 1) =
      unweightedStep bsx bsy W H input ox oy
        (unweightedIterState bsx bsy W H input ox oy buf n) := by
  rw [unweightedIterState, unweightedIterState, Function.iterate_succ_apply']

/-- Concrete 32×32 depth texture for the reachability argument of the
division-by-zero edge case: one valid measurement of depth 10 at pixel
`(x, y) = (10, 10)`, holes (value 0) everywhere else.  With scaling factor 1
the working buffer right after initialization equals this texture, and the
very first diffusion launch — which always checks convergence — runs on it. -/
def probeDepthMap : ℕ → ℕ → ℚ := fun y x => if y = 10 ∧ x = 10 then 10 else 0

/-- C8: the unweighted kernel's convergence check divides by
`depth_shared[shared_mem_index]` with no guard against zero (line 196).  In
the state reached from `probeDepthMap` after the first
`kIterationsPerKernelCall - 1` sub-iterations of the first (convergence
checked) launch of the tile at origin (0, 0), the thread (18, 14) — pixel
(14, 10), Chebyshev distance 4 from the single valid pixel — satisfies the
guard of the change computation (`kOutput` and hole), its cached old value
(the division's denominator) is exactly 0, and its accumulated weight is
strictly positive, so the candidate `result / weight` is strictly positive:
the division-by-zero branch of the total embedding is reachable. -/
theorem claim8_division_by_zero_reachable :
    unweightedKOutput 32 32 32 32 0 0 18 14 ∧
    unweightedIsPixelToInpaint (probeDepthMap
      (clampedCoordU 32 0 14) (clampedCoordU 32 0 18)) ∧
    unweightedIterState 32 32 32 32 probeDepthMap 0 0 probeDepthMap
      (kIterationsPerKernelCall - 1) 18 14 = 0 ∧
    0 < (unweightedGatedAccum 32 32 32 32 probeDepthMap 0 0
      (unweightedIterState 32 32 32 32 probeDepthMap 0 0 probeDepthMap
        (kIterationsPerKernelCall - 1)) 18 14).2 ∧
    0 < (unweightedGatedAccum 32 32 32 32 probeDepthMap 0 0
      (unweightedIterState 32 32 32 32 probeDepthMap 0 0 probeDepthMap
        (kIterationsPerKernelCall - 1)) 18 14).1 /
      (unweightedGatedAccum 32 32 32 32 probeDepthMap 0 0
        (unweightedIterState 32 32 32 32 probeDepthMap 0 0 probeDepthMap
          (kIterationsPerKernelCall - 1)) 18 14).2 := by
  have hclamp : ∀ t, 4 ≤ t → t < 28 → clampedCoordU 32 0 t = t - 4 := by
    intro t h1 h2
    rw [clampedCoordU]
    simp only [kIterationsPerKernelCall]
    rw [if_neg (by omega)]
    omega
  have hhole : ∀ tx ty, 4 ≤ tx → tx < 28 → 4 ≤ ty → ty < 28 →
      unweightedIsPixelToInpaint (probeDepthMap (clampedCoordU 32 0 ty)
        (clampedCoordU 32 0 tx)) ∨ (ty = 14 ∧ tx = 14) := by
    intro tx ty h1 h2 h3 h4
    by_cases hc : ty = 14 ∧ tx = 14
    · right; exact hc
    · left
      rw [hclamp tx h1 h2, hclamp ty h3 h4]
      show probeDepthMap (ty - 4) (tx - 4) ≤ 0
      simp only [probeDepthMap]
      rw [if_neg (by omega)]
  have hhole' : ∀ tx ty, 4 ≤ tx → tx < 28 → 4 ≤ ty → ty < 28 →
      ¬ (ty = 14 ∧ tx = 14) →
      unweightedIsPixelToInpaint (probeDepthMap (clampedCoordU 32 0 ty)
        (clampedCoordU 32 0 tx)) := by
    intro tx ty h1 h2 h3 h4 hne
    rcases hhole tx ty h1 h2 h3 h4 with h | h
    · exact h
    · exact absurd h hne
  have hS0 : ∀ tx ty, 4 ≤ tx → tx < 28 → 4 ≤ ty → ty < 28 →
      ¬ (ty = 14 ∧ tx = 14) →
      unweightedIterState 32 32 32 32 probeDepthMap 0 0 probeDepthMap 0 tx ty
        = 0 := by
    intro tx ty h1 h2 h3 h4 hne
    show unweightedSharedInit 32 32 0 0 probeDepthMap tx ty = 0
    rw [unweightedSharedInit]
    rw [hclamp tx h1 h2, hclamp ty h3 h4]
    simp only [probeDepthMap]
    rw [if_neg (by omega)]
  have hS0c : unweightedIterState 32 32 32 32 probeDepthMap 0 0 probeDepthMap
      0 14 14 = 10 := by
    show unweightedSharedInit 32 32 0 0 probeDepthMap 14 14 = 10
    rw [unweightedSharedInit]
    rw [hclamp 14 (by omega) (by omega)]
    norm_num [probeDepthMap]
  -- zero cone: cells at Chebyshev distance > n from the seed (14, 14), within
  -- the shrinking analysis window around (18, 14), are still 0 after n steps
  have hz0 : ∀ tx ty, 15 ≤ tx → tx ≤ 21 → 11 ≤ ty → ty ≤ 17 →
      unweightedIterState 32 32 32 32 probeDepthMap 0 0 probeDepthMap 0 tx ty
        = 0 := by
    intro tx ty h1 h2 h3 h4
    exact hS0 tx ty (by omega) (by omega) (by omega) (by omega) (by omega)
  have hz1 : ∀ tx ty, 16 ≤ tx → tx ≤ 20 → 12 ≤ ty → ty ≤ 16 →
      unweightedIterState 32 32 32 32 probeDepthMap 0 0 probeDepthMap 1 tx ty
        = 0 := by
    intro tx ty h1 h2 h3 h4
    rw [unweightedIterState_succ]
    have hgz := unweightedGatedAccum_snd_zero 32 32 32 32 probeDepthMap 0 0
      (unweightedIterState 32 32 32 32 probeDepthMap 0 0 probeDepthMap 0) tx ty
      (le_of_eq (hz0 _ _ (by omega) (by omega) (by omega) (by omega)))
      (le_of_eq (hz0 _ _ (by omega) (by omega) (by omega) (by omega)))
      (le_of_eq (hz0 _ _ (by omega) (by omega) (by omega) (by omega)))
      (le_of_eq (hz0 _ _ (by omega) (by omega) (by omega) (by omega)))
      (le_of_eq (hz0 _ _ (by omega) (by omega) (by omega) (by omega)))
      (le_of_eq (hz0 _ _ (by omega) (by omega) (by omega) (by omega)))
      (le_of_eq (hz0 _ _ (by omega) (by omega) (by omega) (by omega)))
      (le_of_eq (hz0 _ _ (by omega) (by omega) (by omega) (by omega)))
    rw [unweightedStep_eq_self 32 32 32 32 probeDepthMap 0 0 _ tx ty
      (by rintro ⟨-, hpos⟩; rw [hgz] at hpos; exact lt_irrefl 0 hpos)]
    exact hz0 tx ty (by omega) (by omega) (by omega) (by omega)
  have hz2 : ∀ tx ty, 17 ≤ tx → tx ≤ 19 → 13 ≤ ty → ty ≤ 15 →
      unweightedIterState 32 32 32 32 probeDepthMap 0 0 probeDepthMap 2 tx ty
        = 0 := by
    intro tx ty h1 h2 h3 h4
    rw [unweightedIterState_succ]
    have hgz := unweightedGatedAccum_snd_zero 32 32 32 32 probeDepthMap 0 0
      (unweightedIterState 32 32 32 32 probeDepthMap 0 0 probeDepthMap 1) tx ty
      (le_of_eq (hz1 _ _ (by omega) (by omega) (by omega) (by omega)))
      (le_of_eq (hz1 _ _ (by omega) (by omega) (by omega) (by omega)))
      (le_of_eq (hz1 _ _ (by omega) (by omega) (by omega) (by omega)))
      (le_of_eq (hz1 _ _ (by omega) (by omega) (by omega) (by omega)))
      (le_of_eq (hz1 _ _ (by omega) (by omega) (by omega) (by omega)))
      (le_of_eq (hz1 _ _ (by omega) (by omega) (by omega) (by omega)))
      (le_of_eq (hz1 _ _ (by omega) (by omega) (by omega) (by omega)))
      (le_of_eq (hz1 _ _ (by omega) (by omega) (by omega) (by omega)))
    rw [unweightedStep_eq_self 32 32 32 32 probeDepthMap 0 0 _ tx ty
      (by rintro ⟨-, hpos⟩; rw [hgz] at hpos; exact lt_irrefl 0 hpos)]
    exact hz1 tx ty (by omega) (by omega) (by omega) (by omega)
  have hz3 : unweightedIterState 32 32 32 32 probeDepthMap 0 0 probeDepthMap
      3 18 14 = 0 := by
    rw [unweightedIterState_succ]
    have hgz := unweightedGatedAccum_snd_zero 32 32 32 32 probeDepthMap 0 0
      (unweightedIterState 32 32 32 32 probeDepthMap 0 0 probeDepthMap 2) 18 14
      (le_of_eq (hz2 17 13 (by omega) (by omega) (by omega) (by omega)))
      (le_of_eq (hz2 18 13 (by omega) (by omega) (by omega) (by omega)))
      (le_of_eq (hz2 19 13 (by omega) (by omega) (by omega) (by omega)))
      (le_of_eq (hz2 17 14 (by omega) (by omega) (by omega) (by omega)))
      (le_of_eq (hz2 19 14 (by omega) (by omega) (by omega) (by omega)))
      (le_of_eq (hz2 17 15 (by omega) (by omega) (by omega) (by omega)))
      (le_of_eq (hz2 18 15 (by omega) (by omega) (by omega) (by omega)))
      (le_of_eq (hz2 19 15 (by omega) (by omega) (by omega) (by omega)))
    rw [unweightedStep_eq_self 32 32 32 32 probeDepthMap 0 0 _ 18 14
      (by rintro ⟨-, hpos⟩; rw [hgz] at hpos; exact lt_irrefl 0 hpos)]
    exact hz2 18 14 (by omega) (by omega) (by omega) (by omega)
  -- positive cone: the valid value diffuses one cell to the right per step
  have hq1 : 0 < unweightedIterState 32 32 32 32 probeDepthMap 0 0
      probeDepthMap 1 15 14 := by
    rw [unweightedIterState_succ]
    refine unweightedStep_pos 32 32 32 32 probeDepthMap 0 0 _ 15 14
      (hhole' 15 14 (by omega) (by omega) (by omega) (by omega) (by omega)) ?_
    refine unweightedGatedAccum_snd_pos_left 32 32 32 32 probeDepthMap 0 0 _
      15 14
      (hhole' 15 14 (by omega) (by omega) (by omega) (by omega) (by omega))
      (by refine ⟨by omega, by omega, by omega, by omega⟩)
      (by rw [hclamp 15 (by omega) (by omega)]; omega) ?_
    rw [show (15 : ℕ) - 1 = 14 from rfl, hS0c]
    norm_num
  have hq2 : 0 < unweightedIterState 32 32 32 32 probeDepthMap 0 0
      probeDepthMap 2 16 14 := by
    rw [unweightedIterState_succ]
    refine unweightedStep_pos 32 32 32 32 probeDepthMap 0 0 _ 16 14
      (hhole' 16 14 (by omega) (by omega) (by omega) (by omega) (by omega)) ?_
    refine unweightedGatedAccum_snd_pos_left 32 32 32 32 probeDepthMap 0 0 _
      16 14
      (hhole' 16 14 (by omega) (by omega) (by omega) (by omega) (by omega))
      (by refine ⟨by omega, by omega, by omega, by omega⟩)
      (by rw [hclamp 16 (by omega) (by omega)]; omega) ?_
    rw [show (16 : ℕ) - 1 = 15 from rfl]
    exact hq1
  have hq3 : 0 < unweightedIterState 32 32 32 32 probeDepthMap 0 0
      probeDepthMap 3 17 14 := by
    rw [unweightedIterState_succ]
    refine unweightedStep_pos 32 32 32 32 probeDepthMap 0 0 _ 17 14
      (hhole' 17 14 (by omega) (by omega) (by omega) (by omega) (by omega)) ?_
    refine unweightedGatedAccum_snd_pos_left 32 32 32 32 probeDepthMap 0 0 _
      17 14
      (hhole' 17 14 (by omega) (by omega) (by omega) (by omega) (by omega))
      (by refine ⟨by omega, by omega, by omega, by omega⟩)
      (by rw [hclamp 17 (by omega) (by omega)]; omega) ?_
    rw [show (17 : ℕ) - 1 = 16 from rfl]
    exact hq2
  have hk3 : kIterationsPerKernelCall - 1 = 3 := rfl
  have hhole18 : unweightedIsPixelToInpaint (probeDepthMap
      (clampedCoordU 32 0 14) (clampedCoordU 32 0 18)) :=
    hhole' 18 14 (by omega) (by omega) (by omega) (by omega) (by omega)
  have hwpos : 0 < (unweightedGatedAccum 32 32 32 32 probeDepthMap 0 0
      (unweightedIterState 32 32 32 32 probeDepthMap 0 0 probeDepthMap 3)
      18 14).2 := by
    refine unweightedGatedAccum_snd_pos_left 32 32 32 32 probeDepthMap 0 0 _
      18 14 hhole18
      (by refine ⟨by omega, by omega, by omega, by omega⟩)
      (by rw [hclamp 18 (by omega) (by omega)]; omega) ?_
    rw [show (18 : ℕ) - 1 = 17 from rfl]
    exact hq3
  rw [hk3]
  refine ⟨by decide, hhole18, hz3, hwpos, ?_⟩
  exact div_pos
    ((unweightedGatedAccum_goodPair 32 32 32 32 probeDepthMap 0 0
      (unweightedIterState 32 32 32 32 probeDepthMap 0 0 probeDepthMap 3)
      18 14).2.2 hwpos) hwpos

/-- C2 — counterexample.  The claim states that the unweighted variant
classifies a pixel as a hole iff its scaled input value is exactly 0, and that
the classification is applied consistently by the initialization pass and the
diffusion kernels.  With scaling factor 1 and input value -1 the scaled value
is -1 ≠ 0, yet the diffusion kernels' test (`tex2D(...) <= 0`, line 94)
classifies the pixel as a hole — while the initialization pass
(`depth_input == 0`, line 72) does not count it. -/
theorem claim2_counterexample :
    unweightedIsPixelToInpaint (-1 : ℚ) ∧
    ¬ ((1 : ℚ) * (-1 : ℚ) = 0) ∧
    ¬ initPixelIsActive (1 : ℚ) (-1 : ℚ) := by
  refine ⟨?_, by norm_num, ?_⟩
  · show (-1 : ℚ) ≤ 0
    norm_num
  · show ¬ ((1 : ℚ) * (-1 : ℚ) = 0)
    norm_num

/-- C2 — amended: both diffusion kernel variants classify a pixel as a hole
iff its raw (unscaled) input-texture value is at most 0 — the unweighted
variant also uses ≤ 0, not exactly 0 — while the initialization pass counts a
pixel as needing inpainting iff its scaled value is exactly 0; with a strictly
positive scaling factor and a non-negative input value all three tests
agree. -/
theorem claim2_amended :
    (∀ v : ℚ, unweightedIsPixelToInpaint v ↔ v ≤ 0) ∧
    (∀ v : ℚ, weightedIsPixelToInpaint v ↔ v ≤ 0) ∧
    (∀ factor v : ℚ, initPixelIsActive factor v ↔ factor * v = 0) ∧
    (∀ factor v : ℚ, 0 < factor → 0 ≤ v →
      (unweightedIsPixelToInpaint v ↔ initPixelIsActive factor v) ∧
      (weightedIsPixelToInpaint v ↔ initPixelIsActive factor v)) := by
  refine ⟨fun v => Iff.rfl, fun v => Iff.rfl, fun f v => Iff.rfl, ?_⟩
  intro f v hf hv
  have key : v ≤ 0 ↔ f * v = 0 := by
    constructor
    · intro h
      have hv0 : v = 0 := le_antisymm h hv
      rw [hv0, mul_zero]
    · intro h
      rcases mul_eq_zero.mp h with h' | h'
      · exact absurd h' (ne_of_gt hf)
      · rw [h']
  exact ⟨key, key⟩

/-- Witness for `claim2_amended` at scaling factor 1 and input value 0. -/
theorem claim2_amended_witness :
    (unweightedIsPixelToInpaint (0 : ℚ) ↔ initPixelIsActive (1 : ℚ) 0) ∧
    (weightedIsPixelToInpaint (0 : ℚ) ↔ initPixelIsActive (1 : ℚ) 0) :=
  claim2_amended.2.2.2 1 0 (by norm_num) (by norm_num)

/-- Line 227-228 of `ConvolutionInpaintingKernelWithWeighting`:
`raw_x = block_coordinates(...) + threadIdx.x - kIterationsPerKernelCall`,
assigned to a (signed) int, so small negative values stay negative. -/
def weightedRawCoord (o t : ℕ) : ℤ :=
  (o : ℤ) + t - kIterationsPerKernelCall

/-- Lines 229-233: `kInImage` — the raw coordinates lie inside the image. -/
abbrev WeightedInImage (W H ox oy tx ty : ℕ) : Prop :=
  0 ≤ weightedRawCoord ox tx ∧ 0 ≤ weightedRawCoord oy ty ∧
  weightedRawCoord ox tx < (W : ℤ) ∧ weightedRawCoord oy ty < (H : ℤ)

/-- Lines 234-235: `x = max(0, min(width - 1, raw_x))` in signed
arithmetic. -/
def weightedClampedCoord (w o t : ℕ) : ℕ :=
  (max 0 (min ((w : ℤ) - 1) (weightedRawCoord o t))).toNat

/-- Line 250: the per-pixel base weight
`(kInImage ? 1 : 0) * 1.f / (1.f + 50.f * tex2D<uchar>(gradient, x, y) * kSqrt2 / 255.f)`;
the gradient texture holds byte values, modelled as naturals. -/
def weightedBaseWeight (W H : ℕ) (grad : ℕ → ℕ → ℕ) (ox oy tx ty : ℕ) : ℚ :=
  (if WeightedInImage W H ox oy tx ty then 1 else 0) * 1 /
    (1 + 50 * (grad (weightedClampedCoord H oy ty)
      (weightedClampedCoord W ox tx) : ℚ) * kSqrt2 / 255)

/-- Lines 249-251: the shared-memory load of the weighted kernel — the depth
tile from the working buffer at the clamped coordinates, and the weight tile
`base_weight * (depth_shared > 0)`. -/
def weightedSharedInit (W H : ℕ) (grad : ℕ → ℕ → ℕ) (ox oy : ℕ)
    (buf : ℕ → ℕ → ℚ) : (ℕ → ℕ → ℚ) × (ℕ → ℕ → ℚ) :=
  (fun tx ty =>
     buf (weightedClampedCoord H oy ty) (weightedClampedCoord W ox tx),
   fun tx ty =>
     weightedBaseWeight W H grad ox oy tx ty *
       (if 0 < buf (weightedClampedCoord H oy ty) (weightedClampedCoord W ox tx)
        then 1 else 0))

/-- One neighbor contribution of the weighted kernel (lines 267-270 and
analogous): `pixel_weight = kernelWeight * weights_shared[neighbor]`,
`new_depth += pixel_weight * depth_shared[neighbor]`,
`weight += pixel_weight`. -/
def wContrib (kw wn depth : ℚ) : ℚ × ℚ := (kw * wn * depth, kw * wn)

/-- The 8-neighbor accumulation of the weighted kernel (lines 264-305); no
coordinate conditions appear because out-of-image neighbors already carry base
weight 0. -/
def weightedAccum (s w : ℕ → ℕ → ℚ) (tx ty : ℕ) : ℚ × ℚ :=
  addPair (addPair (addPair (addPair (addPair (addPair (addPair
    (wContrib wDiag (w (tx - 1) (ty - 1)) (s (tx - 1) (ty - 1)))
    (wContrib wAxis (w tx (ty - 1)) (s tx (ty - 1))))
    (wContrib wDiag (w (tx + 1) (ty - 1)) (s (tx + 1) (ty - 1))))
    (wContrib wAxis (w (tx - 1) ty) (s (tx - 1) ty)))
    (wContrib wAxis (w (tx + 1) ty) (s (tx + 1) ty)))
    (wContrib wDiag (w (tx - 1) (ty + 1)) (s (tx - 1) (ty + 1))))
    (wContrib wAxis (w tx (ty + 1)) (s tx (ty + 1))))
    (wContrib wDiag (w (tx + 1) (ty + 1)) (s (tx + 1) (ty + 1)))

/-- Lines 258-320: `new_depth` starts at 0 and becomes
`accumulated result / accumulated weight` only for hole pixels strictly
inside the tile (the division is performed unguarded inside that branch). -/
def weightedNewDepth (bsx bsy W H : ℕ) (input : ℕ → ℕ → ℚ) (ox oy : ℕ)
    (sw : (ℕ → ℕ → ℚ) × (ℕ → ℕ → ℚ)) (tx ty : ℕ) : ℚ :=
  if weightedIsPixelToInpaint (input (weightedClampedCoord H oy ty)
      (weightedClampedCoord W ox tx)) ∧
     (0 < tx ∧ 0 < ty ∧ tx < bsx - 1 ∧ ty < bsy - 1) then
    (weightedAccum sw.1 sw.2 tx ty).1 / (weightedAccum sw.1 sw.2 tx ty).2
  else 0

/-- One sub-iteration of the weighted kernel (lines 257-348): the depth cell
is overwritten iff the pixel is a hole and `new_depth > 0` (line 339); in
that case and unless it is the final sub-iteration (line 341), the weight
cell is refreshed to `base_weight * (new_depth > 0)`. -/
def weightedStep (bsx bsy W H : ℕ) (input : ℕ → ℕ → ℚ) (grad : ℕ → ℕ → ℕ)
    (ox oy : ℕ) (lastIter : Bool)
    (sw : (ℕ → ℕ → ℚ) × (ℕ → ℕ → ℚ)) : (ℕ → ℕ → ℚ) × (ℕ → ℕ → ℚ) :=
  (fun tx ty =>
    if weightedIsPixelToInpaint (input (weightedClampedCoord H oy ty)
        (weightedClampedCoord W ox tx)) ∧
       0 < weightedNewDepth bsx bsy W H input ox oy sw tx ty then
      weightedNewDepth bsx bsy W H input ox oy sw tx ty
    else sw.1 tx ty,
   fun tx ty =>
    if weightedIsPixelToInpaint (input (weightedClampedCoord H oy ty)
        (weightedClampedCoord W ox tx)) ∧
       0 < weightedNewDepth bsx bsy W H input ox oy sw tx ty ∧
       lastIter = false then
      weightedBaseWeight W H grad ox oy tx ty *
        (if 0 < weightedNewDepth bsx bsy W H input ox oy sw tx ty then 1 else 0)
    else sw.2 tx ty)

/-- Shared-memory pair after the first `n` sub-iterations of the weighted
kernel; the final sub-iteration (`i = kIterationsPerKernelCall - 1`) is
flagged, since it skips the weight refresh. -/
def weightedIterState (bsx bsy W H : ℕ) (input : ℕ → ℕ → ℚ)
    (grad : ℕ → ℕ → ℕ) (ox oy : ℕ) (buf : ℕ → ℕ → ℚ) (n : ℕ) :
    (ℕ → ℕ → ℚ) × (ℕ → ℕ → ℚ) :=
  (List.range n).foldl
    (fun sw i => weightedStep bsx bsy W H input grad ox oy
      (decide (i = kIterationsPerKernelCall - 1)) sw)
    (weightedSharedInit W H grad ox oy buf)

/-- One block of the weighted kernel as a buffer transformation: after all
sub-iterations every thread with `kOutput` (tile output sub-region, in image,
and hole — lines 238-243) writes its depth cell back (lines 350-352). -/
def weightedKernelBlock (bsx bsy W H : ℕ) (input : ℕ → ℕ → ℚ)
    (grad : ℕ → ℕ → ℕ) (ox oy : ℕ) (buf : ℕ → ℕ → ℚ) : ℕ → ℕ → ℚ :=
  fun y x =>
  if ox ≤ x ∧ x < ox + (bsx - 2 * kIterationsPerKernelCall) ∧
     oy ≤ y ∧ y < oy + (bsy - 2 * kIterationsPerKernelCall) ∧
     x < W ∧ y < H ∧ weightedIsPixelToInpaint (input y x) then
    (weightedIterState bsx bsy W H input grad ox oy buf
      kIterationsPerKernelCall).1
      (x - ox + kIterationsPerKernelCall) (y - oy + kIterationsPerKernelCall)
  else buf y x

theorem weightedIterState_succ (bsx bsy W H : ℕ) (input : ℕ → ℕ → ℚ)
    (grad : ℕ → ℕ → ℕ) (ox oy : ℕ) (buf : ℕ → ℕ → ℚ) (n : ℕ) :
    weightedIterState bsx bsy W H input grad ox oy buf (n + 1) =
      weightedStep bsx bsy W H input grad ox oy
        (decide (n = kIterationsPerKernelCall - 1))
        (weightedIterState bsx bsy W H input grad ox oy buf n) := by
  rw [weightedIterState, weightedIterState, List.range_succ,
    List.foldl_append, List.foldl_cons, List.foldl_nil]

/-- With a non-negative weight tile the weighted accumulation's weight is
non-negative. -/
theorem weightedAccum_snd_nonneg (s w : ℕ → ℕ → ℚ) (tx ty : ℕ)
    (hw : ∀ a b, 0 ≤ w a b) : 0 ≤ (weightedAccum s w tx ty).2 := by
  unfold weightedAccum
  simp only [addPair, wContrib]
  have h1 : 0 ≤ wDiag * w (tx - 1) (ty - 1) := mul_nonneg wDiag_nonneg (hw _ _)
  have h2 : 0 ≤ wAxis * w tx (ty - 1) := mul_nonneg wAxis_nonneg (hw _ _)
  have h3 : 0 ≤ wDiag * w (tx + 1) (ty - 1) := mul_nonneg wDiag_nonneg (hw _ _)
  have h4 : 0 ≤ wAxis * w (tx - 1) ty := mul_nonneg wAxis_nonneg (hw _ _)
  have h5 : 0 ≤ wAxis * w (tx + 1) ty := mul_nonneg wAxis_nonneg (hw _ _)
  have h6 : 0 ≤ wDiag * w (tx - 1) (ty + 1) := mul_nonneg wDiag_nonneg (hw _ _)
  have h7 : 0 ≤ wAxis * w tx (ty + 1) := mul_nonneg wAxis_nonneg (hw _ _)
  have h8 : 0 ≤ wDiag * w (tx + 1) (ty + 1) := mul_nonneg wDiag_nonneg (hw _ _)
  linarith

/-- With a non-negative weight tile, a non-positive accumulated weight forces
the candidate `new_depth` to be non-positive (it is `result / 0 = 0` in the
total embedding, matching the NaN-compares-false behavior of the float
division 0/0 under the `new_depth > 0` gate). -/
theorem weightedNewDepth_not_pos (bsx bsy W H : ℕ) (input : ℕ → ℕ → ℚ)
    (ox oy : ℕ) (sw : (ℕ → ℕ → ℚ) × (ℕ → ℕ → ℚ)) (tx ty : ℕ)
    (hw : ∀ a b, 0 ≤ sw.2 a b)
    (hnw : ¬ 0 < (weightedAccum sw.1 sw.2 tx ty).2) :
    ¬ 0 < weightedNewDepth bsx bsy W H input ox oy sw tx ty := by
  rw [weightedNewDepth]
  split
  · have h0 : (weightedAccum sw.1 sw.2 tx ty).2 = 0 :=
      le_antisymm (not_lt.mp hnw) (weightedAccum_snd_nonneg _ _ _ _ hw)
    rw [h0, div_zero]
    exact lt_irrefl 0
  · exact lt_irrefl 0

/-- Every depth cell of the weighted kernel after any number of
sub-iterations either still holds its initially loaded value or holds a
strictly positive value (the write gate is `new_depth > 0`). -/
theorem weightedIterState_fst_mem (bsx bsy W H : ℕ) (input : ℕ → ℕ → ℚ)
    (grad : ℕ → ℕ → ℕ) (ox oy : ℕ) (buf : ℕ → ℕ → ℚ) (n tx ty : ℕ) :
    (weightedIterState bsx bsy W H input grad ox oy buf n).1 tx ty =
      (weightedSharedInit W H grad ox oy buf).1 tx ty ∨
    0 < (weightedIterState bsx bsy W H input grad ox oy buf n).1 tx ty := by
  induction n with
  | zero => left; rfl
  | succ n ih =>
    rw [weightedIterState_succ]
    by_cases hgate : weightedIsPixelToInpaint (input
        (weightedClampedCoord H oy ty) (weightedClampedCoord W ox tx)) ∧
        0 < weightedNewDepth bsx bsy W H input ox oy
          (weightedIterState bsx bsy W H input grad ox oy buf n) tx ty
    · right
      show 0 < (weightedStep bsx bsy W H input grad ox oy _ _).1 tx ty
      simp only [weightedStep]
      rw [if_pos hgate]
      exact hgate.2
    · have heq : (weightedStep bsx bsy W H input grad ox oy
          (decide (n = kIterationsPerKernelCall - 1))
          (weightedIterState bsx bsy W H input grad ox oy buf n)).1 tx ty =
          (weightedIterState bsx bsy W H input grad ox oy buf n).1 tx ty := by
        simp only [weightedStep]
        rw [if_neg hgate]
      rw [heq]
      exact ih

/-- A thread of the output sub-region has unweighted clamped coordinates
equal to its pixel coordinates. -/
theorem clampedCoordU_of_le (w o x : ℕ) (h1 : o ≤ x) (h2 : x < w) :
    clampedCoordU w o (x - o + kIterationsPerKernelCall) = x := by
  rw [clampedCoordU]
  simp only [kIterationsPerKernelCall]
  rw [if_neg (by omega)]
  omega

/-- A thread of the output sub-region has weighted clamped coordinates equal
to its pixel coordinates. -/
theorem weightedClampedCoord_of_le (w o x : ℕ) (h1 : o ≤ x) (h2 : x < w) :
    weightedClampedCoord w o (x - o + kIterationsPerKernelCall) = x := by
  rw [weightedClampedCoord, weightedRawCoord]
  simp only [kIterationsPerKernelCall]
  omega

/-- C5: in both diffusion kernel variants, whether a pixel is a hole is
decided by the original input texture alone, and the working buffer is
written only at pixels that test as holes: every pixel whose input-texture
value is positive keeps its working-buffer value unchanged through an entire
kernel launch. -/
theorem claim5_frame (bsx bsy W H : ℕ) (input : ℕ → ℕ → ℚ)
    (grad : ℕ → ℕ → ℕ) (ox oy : ℕ) (buf : ℕ → ℕ → ℚ) (y x : ℕ)
    (h : 0 < input y x) :
    unweightedKernelBlock bsx bsy W H input ox oy buf y x = buf y x ∧
    weightedKernelBlock bsx bsy W H input grad ox oy buf y x = buf y x := by
  constructor
  · simp only [unweightedKernelBlock]
    rw [if_neg]
    rintro ⟨-, -, -, -, -, -, hh⟩
    exact absurd h (not_lt.mpr hh)
  · simp only [weightedKernelBlock]
    rw [if_neg]
    rintro ⟨-, -, -, -, -, -, hh⟩
    exact absurd h (not_lt.mpr hh)

/-- Witness for `claim5_frame`: a valid pixel (input value 1) keeps its
working value 7 in both variants. -/
theorem claim5_witness :
    unweightedKernelBlock 12 12 4 4 (fun _ _ => 1) 0 0 (fun _ _ => 7) 1 1 =
      (fun _ _ => (7 : ℚ)) 1 1 ∧
    weightedKernelBlock 12 12 4 4 (fun _ _ => 1) (fun _ _ => 0) 0 0
      (fun _ _ => 7) 1 1 = (fun _ _ => (7 : ℚ)) 1 1 :=
  claim5_frame 12 12 4 4 (fun _ _ => 1) (fun _ _ => 0) 0 0 (fun _ _ => 7) 1 1
    (by norm_num)

/-- One diffusion launch of the unweighted kernel: one block per tile of the
compacted active-tile list (`grid_dim_active` blocks, lines 437-452); the
blocks of a launch write disjoint output sub-regions, so the fold order is
irrelevant for the written pixels. -/
def unweightedLaunchRun (bsx bsy W H : ℕ) (input : ℕ → ℕ → ℚ)
    (tiles : List (ℕ × ℕ)) (buf : ℕ → ℕ → ℚ) : ℕ → ℕ → ℚ :=
  tiles.foldl (fun b p => unweightedKernelBlock bsx bsy W H input p.1 p.2 b) buf

/-- A whole run of unweighted diffusion launches (the working buffer after
the orchestrator loop issued the given sequence of launches). -/
def unweightedRun (bsx bsy W H : ℕ) (input : ℕ → ℕ → ℚ)
    (launches : List (List (ℕ × ℕ))) (buf : ℕ → ℕ → ℚ) : ℕ → ℕ → ℚ :=
  launches.foldl
    (fun b t => unweightedLaunchRun bsx bsy W H input t b) buf

/-- One diffusion launch of the weighted kernel. -/
def weightedLaunchRun (bsx bsy W H : ℕ) (input : ℕ → ℕ → ℚ)
    (grad : ℕ → ℕ → ℕ) (tiles : List (ℕ × ℕ)) (buf : ℕ → ℕ → ℚ) :
    ℕ → ℕ → ℚ :=
  tiles.foldl
    (fun b p => weightedKernelBlock bsx bsy W H input grad p.1 p.2 b) buf

/-- A whole run of weighted diffusion launches. -/
def weightedRun (bsx bsy W H : ℕ) (input : ℕ → ℕ → ℚ) (grad : ℕ → ℕ → ℕ)
    (launches : List (List (ℕ × ℕ))) (buf : ℕ → ℕ → ℚ) : ℕ → ℕ → ℚ :=
  launches.foldl
    (fun b t => weightedLaunchRun bsx bsy W H input grad t b) buf

/-- The hole-value dichotomy — every hole pixel of the working buffer holds
zero or a strictly positive value — is preserved by one block of the
unweighted kernel. -/
theorem unweightedKernelBlock_inv (bsx bsy W H : ℕ) (input : ℕ → ℕ → ℚ)
    (ox oy : ℕ) (buf : ℕ → ℕ → ℚ)
    (hbuf : ∀ b a, input b a ≤ 0 → buf b a = 0 ∨ 0 < buf b a) :
    ∀ y x, input y x ≤ 0 →
      unweightedKernelBlock bsx bsy W H input ox oy buf y x = 0 ∨
      0 < unweightedKernelBlock bsx bsy W H input ox oy buf y x := by
  intro y x hhx
  simp only [unweightedKernelBlock]
  split
  · rename_i hc
    obtain ⟨h1, -, h3, -, h5, h6, -⟩ := hc
    rcases unweightedIterState_mem bsx bsy W H input ox oy buf
      kIterationsPerKernelCall (x - ox + kIterationsPerKernelCall)
      (y - oy + kIterationsPerKernelCall) with hm | hm
    · rw [hm, unweightedSharedInit]
      rw [clampedCoordU_of_le W ox x h1 h5,
        clampedCoordU_of_le H oy y h3 h6]
      exact hbuf y x hhx
    · right; exact hm
  · exact hbuf y x hhx

/-- The hole-value dichotomy is preserved by one unweighted launch. -/
theorem unweightedLaunchRun_inv (bsx bsy W H : ℕ) (input : ℕ → ℕ → ℚ)
    (tiles : List (ℕ × ℕ)) :
    ∀ buf : ℕ → ℕ → ℚ,
      (∀ b a, input b a ≤ 0 → buf b a = 0 ∨ 0 < buf b a) →
      ∀ b a, input b a ≤ 0 →
        unweightedLaunchRun bsx bsy W H input tiles buf b a = 0 ∨
        0 < unweightedLaunchRun bsx bsy W H input tiles buf b a := by
  induction tiles with
  | nil => intro buf hbuf b a h; exact hbuf b a h
  | cons p tiles ih =>
    intro buf hbuf b a h
    rw [unweightedLaunchRun, List.foldl_cons]
    exact ih (unweightedKernelBlock bsx bsy W H input p.1 p.2 buf)
      (unweightedKernelBlock_inv bsx bsy W H input p.1 p.2 buf hbuf) b a h

/-- The hole-value dichotomy is preserved by any sequence of unweighted
launches. -/
theorem unweightedRun_inv (bsx bsy W H : ℕ) (input : ℕ → ℕ → ℚ)
    (launches : List (List (ℕ × ℕ))) :
    ∀ buf : ℕ → ℕ → ℚ,
      (∀ b a, input b a ≤ 0 → buf b a = 0 ∨ 0 < buf b a) →
      ∀ b a, input b a ≤ 0 →
        unweightedRun bsx bsy W H input launches buf b a = 0 ∨
        0 < unweightedRun bsx bsy W H input launches buf b a := by
  induction launches with
  | nil => intro buf hbuf b a h; exact hbuf b a h
  | cons t launches ih =>
    intro buf hbuf b a h
    rw [unweightedRun, List.foldl_cons]
    exact ih (unweightedLaunchRun bsx bsy W H input t buf)
      (unweightedLaunchRun_inv bsx bsy W H input t buf hbuf) b a h

/-- The hole-value dichotomy is preserved by one block of the weighted
kernel. -/
theorem weightedKernelBlock_inv (bsx bsy W H : ℕ) (input : ℕ → ℕ → ℚ)
    (grad : ℕ → ℕ → ℕ) (ox oy : ℕ) (buf : ℕ → ℕ → ℚ)
    (hbuf : ∀ b a, input b a ≤ 0 → buf b a = 0 ∨ 0 < buf b a) :
    ∀ y x, input y x ≤ 0 →
      weightedKernelBlock bsx bsy W H input grad ox oy buf y x = 0 ∨
      0 < weightedKernelBlock bsx bsy W H input grad ox oy buf y x := by
  intro y x hhx
  simp only [weightedKernelBlock]
  split
  · rename_i hc
    obtain ⟨h1, -, h3, -, h5, h6, -⟩ := hc
    rcases weightedIterState_fst_mem bsx bsy W H input grad ox oy buf
      kIterationsPerKernelCall (x - ox + kIterationsPerKernelCall)
      (y - oy + kIterationsPerKernelCall) with hm | hm
    · rw [hm]
      simp only [weightedSharedInit]
      rw [weightedClampedCoord_of_le W ox x h1 h5,
        weightedClampedCoord_of_le H oy y h3 h6]
      exact hbuf y x hhx
    · right; exact hm
  · exact hbuf y x hhx

/-- The hole-value dichotomy is preserved by one weighted launch. -/
theorem weightedLaunchRun_inv (bsx bsy W H : ℕ) (input : ℕ → ℕ → ℚ)
    (grad : ℕ → ℕ → ℕ) (tiles : List (ℕ × ℕ)) :
    ∀ buf : ℕ → ℕ → ℚ,
      (∀ b a, input b a ≤ 0 → buf b a = 0 ∨ 0 < buf b a) →
      ∀ b a, input b a ≤ 0 →
        weightedLaunchRun bsx bsy W H input grad tiles buf b a = 0 ∨
        0 < weightedLaunchRun bsx bsy W H input grad tiles buf b a := by
  induction tiles with
  | nil => intro buf hbuf b a h; exact hbuf b a h
  | cons p tiles ih =>
    intro buf hbuf b a h
    rw [weightedLaunchRun, List.foldl_cons]
    exact ih (weightedKernelBlock bsx bsy W H input grad p.1 p.2 buf)
      (weightedKernelBlock_inv bsx bsy W H input grad p.1 p.2 buf hbuf) b a h

/-- The hole-value dichotomy is preserved by any sequence of weighted
launches. -/
theorem weightedRun_inv (bsx bsy W H : ℕ) (input : ℕ → ℕ → ℚ)
    (grad : ℕ → ℕ → ℕ) (launches : List (List (ℕ × ℕ))) :
    ∀ buf : ℕ → ℕ → ℚ,
      (∀ b a, input b a ≤ 0 → buf b a = 0 ∨ 0 < buf b a) →
      ∀ b a, input b a ≤ 0 →
        weightedRun bsx bsy W H input grad launches buf b a = 0 ∨
        0 < weightedRun bsx bsy W H input grad launches buf b a := by
  induction launches with
  | nil => intro buf hbuf b a h; exact hbuf b a h
  | cons t launches ih =>
    intro buf hbuf b a h
    rw [weightedRun, List.foldl_cons]
    exact ih (weightedLaunchRun bsx bsy W H input grad t buf)
      (weightedLaunchRun_inv bsx bsy W H input grad t buf hbuf) b a h

/-- C6: in every diffusion sub-iteration of either variant a hole pixel's
cached value is overwritten only when its accumulated neighbor weight is
strictly positive and is otherwise left unchanged (for the weighted variant
under non-negativity of the weight tile, which holds on every reachable
state).  Consequently the zero-or-strictly-positive dichotomy at hole pixels
is an invariant of every kernel block (conjuncts 3-4), and over a whole run —
any sequence of launches over any tile lists, starting from the
post-initialization working buffer, which is exactly zero wherever the input
marks a hole given non-negative input depths — every former-hole pixel's
final output value is either its unchanged zero or strictly positive, never
negative (conjuncts 5-6). -/
theorem claim6_positivity :
    (∀ bsx bsy W H : ℕ, ∀ input : ℕ → ℕ → ℚ, ∀ ox oy : ℕ,
      ∀ s : ℕ → ℕ → ℚ, ∀ tx ty : ℕ,
      ¬ 0 < (unweightedGatedAccum bsx bsy W H input ox oy s tx ty).2 →
      unweightedStep bsx bsy W H input ox oy s tx ty = s tx ty) ∧
    (∀ bsx bsy W H : ℕ, ∀ input : ℕ → ℕ → ℚ, ∀ grad : ℕ → ℕ → ℕ,
      ∀ ox oy : ℕ, ∀ lastIter : Bool,
      ∀ sw : (ℕ → ℕ → ℚ) × (ℕ → ℕ → ℚ), ∀ tx ty : ℕ,
      (∀ a b, 0 ≤ sw.2 a b) →
      ¬ 0 < (weightedAccum sw.1 sw.2 tx ty).2 →
      (weightedStep bsx bsy W H input grad ox oy lastIter sw).1 tx ty =
        sw.1 tx ty) ∧
    (∀ bsx bsy W H : ℕ, ∀ input : ℕ → ℕ → ℚ, ∀ ox oy : ℕ,
      ∀ buf : ℕ → ℕ → ℚ, ∀ y x : ℕ,
      (∀ b a, input b a ≤ 0 → buf b a = 0 ∨ 0 < buf b a) → input y x ≤ 0 →
      unweightedKernelBlock bsx bsy W H input ox oy buf y x = 0 ∨
      0 < unweightedKernelBlock bsx bsy W H input ox oy buf y x) ∧
    (∀ bsx bsy W H : ℕ, ∀ input : ℕ → ℕ → ℚ, ∀ grad : ℕ → ℕ → ℕ,
      ∀ ox oy : ℕ, ∀ buf : ℕ → ℕ → ℚ, ∀ y x : ℕ,
      (∀ b a, input b a ≤ 0 → buf b a = 0 ∨ 0 < buf b a) → input y x ≤ 0 →
      weightedKernelBlock bsx bsy W H input grad ox oy buf y x = 0 ∨
      0 < weightedKernelBlock bsx bsy W H input grad ox oy buf y x) ∧
    (∀ bsx bsy W H : ℕ, ∀ input : ℕ → ℕ → ℚ,
      ∀ launches : List (List (ℕ × ℕ)), ∀ buf : ℕ → ℕ → ℚ,
      (∀ b a, input b a ≤ 0 → buf b a = 0) →
      ∀ y x, input y x ≤ 0 →
        unweightedRun bsx bsy W H input launches buf y x = 0 ∨
        0 < unweightedRun bsx bsy W H input launches buf y x) ∧
    (∀ bsx bsy W H : ℕ, ∀ input : ℕ → ℕ → ℚ, ∀ grad : ℕ → ℕ → ℕ,
      ∀ launches : List (List (ℕ × ℕ)), ∀ buf : ℕ → ℕ → ℚ,
      (∀ b a, input b a ≤ 0 → buf b a = 0) →
      ∀ y x, input y x ≤ 0 →
        weightedRun bsx bsy W H input grad launches buf y x = 0 ∨
        0 < weightedRun bsx bsy W H input grad launches buf y x) := by
  refine ⟨?_, ?_, ?_, ?_, ?_, ?_⟩
  · intro bsx bsy W H input ox oy s tx ty hnp
    exact unweightedStep_eq_self bsx bsy W H input ox oy s tx ty
      (fun hc => hnp hc.2)
  · intro bsx bsy W H input grad ox oy lastIter sw tx ty hw hnw
    simp only [weightedStep]
    rw [if_neg]
    rintro ⟨-, hpos⟩
    exact weightedNewDepth_not_pos bsx bsy W H input ox oy sw tx ty hw hnw hpos
  · intro bsx bsy W H input ox oy buf y x hbuf hhx
    exact unweightedKernelBlock_inv bsx bsy W H input ox oy buf hbuf y x hhx
  · intro bsx bsy W H input grad ox oy buf y x hbuf hhx
    exact weightedKernelBlock_inv bsx bsy W H input grad ox oy buf hbuf y x hhx
  · intro bsx bsy W H input launches buf hbuf y x hhx
    exact unweightedRun_inv bsx bsy W H input launches buf
      (fun b a h => Or.inl (hbuf b a h)) y x hhx
  · intro bsx bsy W H input grad launches buf hbuf y x hhx
    exact weightedRun_inv bsx bsy W H input grad launches buf
      (fun b a h => Or.inl (hbuf b a h)) y x hhx

/-- Witness for `claim6_positivity` on all-zero concrete states, with a
two-launch run for the whole-run conjuncts. -/
theorem claim6_witness :
    (unweightedStep 12 12 4 4 (fun _ _ => (0 : ℚ)) 0 0 (fun _ _ => 0) 1 1 =
      (fun _ _ => (0 : ℚ)) 1 1) ∧
    ((weightedStep 12 12 4 4 (fun _ _ => (0 : ℚ)) (fun _ _ => 0) 0 0 false
      (fun _ _ => 0, fun _ _ => 0)).1 1 1 = (fun _ _ => (0 : ℚ)) 1 1) ∧
    (unweightedKernelBlock 12 12 4 4 (fun _ _ => (0 : ℚ)) 0 0
      (fun _ _ => 0) 1 1 = 0 ∨
     0 < unweightedKernelBlock 12 12 4 4 (fun _ _ => (0 : ℚ)) 0 0
      (fun _ _ => 0) 1 1) ∧
    (weightedKernelBlock 12 12 4 4 (fun _ _ => (0 : ℚ)) (fun _ _ => 0) 0 0
      (fun _ _ => 0) 1 1 = 0 ∨
     0 < weightedKernelBlock 12 12 4 4 (fun _ _ => (0 : ℚ)) (fun _ _ => 0) 0 0
      (fun _ _ => 0) 1 1) ∧
    (unweightedRun 12 12 4 4 (fun _ _ => (0 : ℚ)) [[(0, 0)], [(0, 0)]]
      (fun _ _ => 0) 1 1 = 0 ∨
     0 < unweightedRun 12 12 4 4 (fun _ _ => (0 : ℚ)) [[(0, 0)], [(0, 0)]]
      (fun _ _ => 0) 1 1) ∧
    (weightedRun 12 12 4 4 (fun _ _ => (0 : ℚ)) (fun _ _ => 0)
      [[(0, 0)], [(0, 0)]] (fun _ _ => 0) 1 1 = 0 ∨
     0 < weightedRun 12 12 4 4 (fun _ _ => (0 : ℚ)) (fun _ _ => 0)
      [[(0, 0)], [(0, 0)]] (fun _ _ => 0) 1 1) :=
  by
  refine ⟨?_, ?_, ?_, ?_, ?_, ?_⟩
  · apply claim6_positivity.1 12 12 4 4 (fun _ _ => 0) 0 0 (fun _ _ => 0) 1 1
    rw [unweightedGatedAccum_snd_zero]
    · exact lt_irrefl 0
    all_goals exact le_refl 0
  · apply claim6_positivity.2.1 12 12 4 4 (fun _ _ => 0) (fun _ _ => 0) 0 0
      false (fun _ _ => 0, fun _ _ => 0) 1 1 (fun _ _ => le_refl 0)
    simp [weightedAccum, wContrib, addPair]
  · exact claim6_positivity.2.2.1 12 12 4 4 (fun _ _ => 0) 0 0 (fun _ _ => 0)
      1 1 (fun _ _ _ => Or.inl rfl) (le_refl 0)
  · exact claim6_positivity.2.2.2.1 12 12 4 4 (fun _ _ => 0) (fun _ _ => 0)
      0 0 (fun _ _ => 0) 1 1 (fun _ _ _ => Or.inl rfl) (le_refl 0)
  · exact claim6_positivity.2.2.2.2.1 12 12 4 4 (fun _ _ => 0)
      [[(0, 0)], [(0, 0)]] (fun _ _ => 0) (fun _ _ _ => rfl) 1 1 (le_refl 0)
  · exact claim6_positivity.2.2.2.2.2 12 12 4 4 (fun _ _ => 0) (fun _ _ => 0)
      [[(0, 0)], [(0, 0)]] (fun _ _ => 0) (fun _ _ _ => rfl) 1 1 (le_refl 0)

/-- The five parameters `GetCachedTextureObject` compares (lines 251-254 of
cuda_buffer_inl.h): the two address modes, the filter mode, the read mode and
the normalized-coordinates flag; the enum values are modelled as naturals. -/
structure TextureConfig where
  addressModeX : ℕ
  addressModeY : ℕ
  filterMode : ℕ
  readMode : ℕ
  normalizedCoords : Bool
deriving DecidableEq

/-- The sampler-cache state of a `CUDABuffer`: whether a texture object is
currently cached (`texture_object_allocated_`), the cached configuration and
object handle, a supply of fresh handles standing for
`cudaCreateTextureObject`, and the log of handles passed to
`cudaDestroyTextureObject`. -/
structure TextureCacheState where
  allocated : Bool
  cachedConfig : TextureConfig
  cachedObject : ℕ
  nextHandle : ℕ
  destroyed : List ℕ
deriving DecidableEq

/-- `CUDABuffer<T>::GetCachedTextureObject` (cuda_buffer_inl.h lines
244-271): if a sampler is cached and all five requested parameters equal the
cached configuration, return the cached object and leave the state untouched;
otherwise destroy the stale cached sampler (when one is allocated), build a
fresh sampler for the requested configuration, cache it together with the
request parameters, and return it. -/
def GetCachedTextureObject (st : TextureCacheState) (cfg : TextureConfig) :
    ℕ × TextureCacheState :=
  if st.allocated = true ∧ cfg = st.cachedConfig then
    (st.cachedObject, st)
  else
    (st.nextHandle,
      { allocated := true, cachedConfig := cfg, cachedObject := st.nextHandle,
        nextHandle := st.nextHandle + 1,
        destroyed :=
          if st.allocated = true then st.destroyed ++ [st.cachedObject]
          else st.destroyed })

/-- C9: on a request matching the cached configuration the cached object is
returned with the whole state unchanged (nothing destroyed, nothing built),
so two consecutive identical requests return the same object and state; on a
mismatching request with a sampler cached, the stale object is appended to
the destruction log and a fresh object is built, cached and returned; in
every case the cache afterwards holds exactly the requested
configuration. -/
theorem claim9_cached_sampler (st : TextureCacheState) (cfg : TextureConfig) :
    (st.allocated = true → cfg = st.cachedConfig →
      GetCachedTextureObject st cfg = (st.cachedObject, st)) ∧
    ((GetCachedTextureObject (GetCachedTextureObject st cfg).2 cfg).1 =
        (GetCachedTextureObject st cfg).1 ∧
      (GetCachedTextureObject (GetCachedTextureObject st cfg).2 cfg).2 =
        (GetCachedTextureObject st cfg).2) ∧
    (st.allocated = true → cfg ≠ st.cachedConfig →
      (GetCachedTextureObject st cfg).2.destroyed =
        st.destroyed ++ [st.cachedObject] ∧
      (GetCachedTextureObject st cfg).1 = st.nextHandle ∧
      (GetCachedTextureObject st cfg).2.cachedObject =
        (GetCachedTextureObject st cfg).1) ∧
    ((GetCachedTextureObject st cfg).2.allocated = true ∧
      (GetCachedTextureObject st cfg).2.cachedConfig = cfg) := by
  refine ⟨?_, ?_, ?_, ?_⟩
  · intro ha hc
    rw [GetCachedTextureObject, if_pos ⟨ha, hc⟩]
  · by_cases h : st.allocated = true ∧ cfg = st.cachedConfig
    · simp only [GetCachedTextureObject, if_pos h]
      exact ⟨trivial, trivial⟩
    · simp only [GetCachedTextureObject, if_neg h]
      simp
  · intro ha hc
    have h : ¬ (st.allocated = true ∧ cfg = st.cachedConfig) :=
      fun hx => hc hx.2
    rw [GetCachedTextureObject, if_neg h]
    refine ⟨?_, rfl, rfl⟩
    simp only
    rw [if_pos ha]
  · by_cases h : st.allocated = true ∧ cfg = st.cachedConfig
    · rw [GetCachedTextureObject, if_pos h]
      exact ⟨h.1, h.2.symm⟩
    · rw [GetCachedTextureObject, if_neg h]
      exact ⟨rfl, rfl⟩

/-- Witness for `claim9_cached_sampler`: a concrete hit on the cached
configuration and a concrete miss that destroys handle 5. -/
theorem claim9_witness :
    GetCachedTextureObject ⟨true, ⟨0, 0, 0, 0, false⟩, 5, 10, []⟩
        ⟨0, 0, 0, 0, false⟩ =
      (5, ⟨true, ⟨0, 0, 0, 0, false⟩, 5, 10, []⟩) ∧
    ((GetCachedTextureObject ⟨true, ⟨0, 0, 0, 0, false⟩, 5, 10, []⟩
        ⟨1, 0, 0, 0, false⟩).2.destroyed = [] ++ [5] ∧
      (GetCachedTextureObject ⟨true, ⟨0, 0, 0, 0, false⟩, 5, 10, []⟩
        ⟨1, 0, 0, 0, false⟩).1 = 10 ∧
      (GetCachedTextureObject ⟨true, ⟨0, 0, 0, 0, false⟩, 5, 10, []⟩
        ⟨1, 0, 0, 0, false⟩).2.cachedObject =
        (GetCachedTextureObject ⟨true, ⟨0, 0, 0, 0, false⟩, 5, 10, []⟩
          ⟨1, 0, 0, 0, false⟩).1) :=
  ⟨(claim9_cached_sampler ⟨true, ⟨0, 0, 0, 0, false⟩, 5, 10, []⟩
      ⟨0, 0, 0, 0, false⟩).1 rfl rfl,
   (claim9_cached_sampler ⟨true, ⟨0, 0, 0, 0, false⟩, 5, 10, []⟩
      ⟨1, 0, 0, 0, false⟩).2.2.1 rfl (by decide)⟩

end ViewCorrection
